import Mathlib

/-!
Verification of the rdb key-value store: a shallow embedding of its RESP
protocol engine (src/protocol/mod.rs), storage engine (src/storage/mod.rs),
command dispatcher (src/commands/mod.rs) and the inline request handler in
src/main.rs, together with proofs about encoding/decoding round-trips,
incremental parsing, memory accounting and command dispatch.

Strings of the Rust source are modelled as lists of characters; `usize` and
`i64` arithmetic is modelled on `Nat`/`Int` with explicit range conditions
where the source's fixed-width types matter.  The recursive RESP parser is
modelled with an explicit fuel argument so that it is structurally recursive;
`parse_resp` instantiates the fuel with a sufficient value, and all theorems
are stated about `parse_resp`.
-/

set_option maxHeartbeats 1000000
set_option linter.unusedVariables false

abbrev Str := List Char

def str (s : String) : Str := s.data

def CRLF : Str := ['\r', '\n']

/-- Index of the first occurrence of "\r\n" in a character list,
modelling Rust's `str::find("\r\n")`. -/
def findCRLF : Str → Option Nat
  | [] => none
  | [_] => none
  | c1 :: c2 :: t =>
    if c1 = '\r' ∧ c2 = '\n' then some 0
    else (findCRLF (c2 :: t)).map (fun n => n + 1)

def hasCRLF (s : Str) : Bool := (findCRLF s).isSome

/-- Decimal digit character for a digit value (values ≥ 9 all map to '9';
only applied to values < 10). -/
def digitChar (d : Nat) : Char :=
  match d with
  | 0 => '0' | 1 => '1' | 2 => '2' | 3 => '3' | 4 => '4'
  | 5 => '5' | 6 => '6' | 7 => '7' | 8 => '8' | _ => '9'

def digitVal (c : Char) : Nat := c.toNat - 48

/-- Value of a decimal digit string, most significant digit first. -/
def digitsToNat (s : Str) : Nat := s.foldl (fun a c => a * 10 + digitVal c) 0

/-- Little-endian decimal digits of `n`, with explicit fuel (structurally
recursive so that it evaluates inside the kernel). -/
def natDigitsRev (fuel : Nat) (n : Nat) : List Nat :=
  match fuel with
  | 0 => []
  | f + 1 => if n = 0 then [] else n % 10 :: natDigitsRev f (n / 10)

/-- Decimal rendering of a natural number, modelling Rust's `format!("{}", n)`
for unsigned values. -/
def natToStr (n : Nat) : Str :=
  if n = 0 then ['0'] else ((natDigitsRev n n).map digitChar).reverse

/-- Decimal rendering of a signed integer, modelling Rust's `format!("{}", n)`
for `i64` values. -/
def intToStr (i : Int) : Str :=
  if i < 0 then '-' :: natToStr i.natAbs else natToStr i.toNat

/-- Digit-run part of `str::parse::<i64>`: nonempty, all ASCII digits,
value within the i64 range for the requested sign. -/
def i64core (neg : Bool) (ds : Str) : Option Int :=
  if ds.isEmpty then none
  else if ds.all (fun c => c.isDigit) then
    let n := digitsToNat ds
    if neg then (if n ≤ 2 ^ 63 then some (-(n : Int)) else none)
    else (if n < 2 ^ 63 then some ((n : Int)) else none)
  else none

/-- Rust's `str::parse::<i64>`: an optional sign followed by decimal digits,
rejecting the empty string, non-digit characters, and out-of-range values. -/
def parseI64 (s : Str) : Option Int :=
  match s with
  | [] => none
  | c :: rest =>
    if c = '-' then i64core true rest
    else if c = '+' then i64core false rest
    else i64core false (c :: rest)

/-- RESP values, from `enum RespValue` in src/protocol/mod.rs. -/
inductive RespValue where
  | simpleString : Str → RespValue
  | error : Str → RespValue
  | integer : Int → RespValue
  | bulkString : Option Str → RespValue
  | array : List RespValue → RespValue

/-- RESP parse errors, from `enum RespError` in src/protocol/mod.rs. -/
inductive RespError where
  | invalidFormat
  | incomplete
  | invalidLength : Str → RespError
deriving DecidableEq

mutual

/-- Boolean equality test on RESP values. -/
def beqVal : RespValue → RespValue → Bool
  | .simpleString a, .simpleString b => a = b
  | .error a, .error b => a = b
  | .integer a, .integer b => a = b
  | .bulkString a, .bulkString b => a = b
  | .array xs, .array ys => beqList xs ys
  | _, _ => false

/-- Boolean equality test on lists of RESP values. -/
def beqList : List RespValue → List RespValue → Bool
  | [], [] => true
  | x :: xs, y :: ys => beqVal x y && beqList xs ys
  | _, _ => false

end

/-- Structural induction on RESP values giving access to array members. -/
theorem RespValue.recMem {motive : RespValue → Prop}
    (h1 : ∀ s, motive (.simpleString s)) (h2 : ∀ s, motive (.error s))
    (h3 : ∀ n, motive (.integer n)) (h4 : ∀ o, motive (.bulkString o))
    (h5 : ∀ items, (∀ v ∈ items, motive v) → motive (.array items)) :
    ∀ v, motive v
  | .simpleString s => h1 s
  | .error s => h2 s
  | .integer n => h3 n
  | .bulkString o => h4 o
  | .array items =>
    h5 items (fun u hu => RespValue.recMem h1 h2 h3 h4 h5 u)
termination_by v => sizeOf v
decreasing_by
  have := List.sizeOf_lt_of_mem hu
  simp only [RespValue.array.sizeOf_spec]
  omega

theorem beqVal_iff : ∀ a b : RespValue, beqVal a b = true ↔ a = b := by
  intro a
  induction a using RespValue.recMem with
  | h1 s => intro b; cases b <;> simp [beqVal]
  | h2 s => intro b; cases b <;> simp [beqVal]
  | h3 n => intro b; cases b <;> simp [beqVal]
  | h4 o => intro b; cases b <;> simp [beqVal]
  | h5 items ih =>
    intro b
    cases b <;> simp only [beqVal, beqList] <;> try simp
    rename_i ys
    induction items generalizing ys with
    | nil => cases ys <;> simp [beqList]
    | cons x xs ihxs =>
      cases ys with
      | nil => simp [beqList]
      | cons y ys' =>
        simp only [beqList, Bool.and_eq_true, List.cons.injEq]
        constructor
        · rintro ⟨hb, hrest⟩
          exact ⟨(ih x (by simp) y).mp hb, (ihxs (fun v hv => ih v (by simp [hv])) ys').mp hrest⟩
        · rintro ⟨hb, hrest⟩
          exact ⟨(ih x (by simp) y).mpr hb, (ihxs (fun v hv => ih v (by simp [hv])) ys').mpr hrest⟩

instance : DecidableEq RespValue := fun a b =>
  decidable_of_iff (beqVal a b = true) (beqVal_iff a b)

instance {ε α : Type} [DecidableEq ε] [DecidableEq α] : DecidableEq (Except ε α) := fun x y =>
  match x, y with
  | .ok a, .ok b => decidable_of_iff (a = b) (by simp)
  | .error a, .error b => decidable_of_iff (a = b) (by simp)
  | .ok _, .error _ => isFalse (by simp)
  | .error _, .ok _ => isFalse (by simp)

abbrev ParseOk := RespValue × Nat

mutual

/-- `parse_resp` from src/protocol/mod.rs, on the full input, with explicit
fuel.  Returns the parsed value and the number of characters consumed. -/
def parseRespF : Nat → Str → Except RespError ParseOk
  | 0, _ => .error .incomplete
  | _ + 1, [] => .error .incomplete
  | f + 1, c :: t =>
    if c = '+' then
      match findCRLF t with
      | none => .error .incomplete
      | some e => .ok (.simpleString (t.take e), e + 3)
    else if c = '-' then
      match findCRLF t with
      | none => .error .incomplete
      | some e => .ok (.error (t.take e), e + 3)
    else if c = ':' then
      match findCRLF t with
      | none => .error .incomplete
      | some e =>
        match parseI64 (t.take e) with
        | none => .error .invalidFormat
        | some num => .ok (.integer num, e + 3)
    else if c = '$' then
      match findCRLF t with
      | none => .error .incomplete
      | some e =>
        match parseI64 (t.take e) with
        | none => .error .invalidFormat
        | some len =>
          if len = -1 then .ok (.bulkString none, e + 3)
          else
            -- `length as usize`: two's-complement reinterpretation of the i64
            let lnat : Nat := (len % (2 ^ 64 : Int)).toNat
            let rest := t.drop (e + 2)
            if rest.length < lnat + 2 then .error .incomplete
            else if (rest.drop lnat).take 2 = ['\r', '\n']
            then .ok (.bulkString (some (rest.take lnat)), e + lnat + 5)
            else .error .invalidFormat
    else if c = '*' then
      match findCRLF t with
      | none => .error .incomplete
      | some e =>
        match parseI64 (t.take e) with
        | none => .error .invalidFormat
        | some len =>
          if len = -1 then .ok (.array [], e + 3)
          else
            match parseElemsF f (t.drop (e + 2)) len.toNat with
            | .ok (items, l2) => .ok (.array items, e + 3 + l2)
            | .error err => .error err
    else .error .invalidFormat

/-- The element loop of `parse_array`: parse `count` consecutive frames from
the remaining input, returning them with the total characters consumed. -/
def parseElemsF : Nat → Str → Nat → Except RespError (List RespValue × Nat)
  | 0, _, _ => .error .incomplete
  | _ + 1, _, 0 => .ok ([], 0)
  | f + 1, rem, n + 1 =>
    if rem.isEmpty then .error .incomplete
    else
      match parseRespF f rem with
      | .ok (v, len) =>
        match parseElemsF f (rem.drop len) n with
        | .ok (vs, l2) => .ok (v :: vs, len + l2)
        | .error err => .error err
      | .error err => .error err

end

/-- `parse_resp` with the fuel instantiated to a sufficient value. -/
def parse_resp (input : Str) : Except RespError ParseOk :=
  parseRespF (input.length + 1) input

mutual

/-- `RespValue::to_string` from src/protocol/mod.rs. -/
def encVal : RespValue → Str
  | .simpleString s => '+' :: (s ++ CRLF)
  | .error s => '-' :: (s ++ CRLF)
  | .integer n => ':' :: (intToStr n ++ CRLF)
  | .bulkString none => '$' :: '-' :: '1' :: CRLF
  | .bulkString (some s) => '$' :: (natToStr s.length ++ CRLF ++ s ++ CRLF)
  | .array items => '*' :: (natToStr items.length ++ CRLF ++ encList items)

/-- Concatenation of the encodings of a list of values (the loop in the
`Array` arm of `RespValue::to_string`). -/
def encList : List RespValue → Str
  | [] => []
  | v :: vs => encVal v ++ encList vs

end

mutual

/-- Well-formed RESP values: the payloads of `SimpleString` and `Error`
contain no CRLF (the encoding is not self-delimiting there), integers fit in
`i64`, and bulk-string / array lengths fit in `i64` (they are `usize` values
printed and re-parsed as `i64` by the source). -/
def wfB : RespValue → Bool
  | .simpleString s => !hasCRLF s
  | .error s => !hasCRLF s
  | .integer n => decide (-(2 ^ 63) ≤ n) && decide (n < 2 ^ 63)
  | .bulkString none => true
  | .bulkString (some s) => decide (s.length < 2 ^ 63)
  | .array items => decide (items.length < 2 ^ 63) && wfList items

/-- All members of a list of RESP values are well-formed. -/
def wfList : List RespValue → Bool
  | [] => true
  | v :: vs => wfB v && wfList vs

end

example : parse_resp (str "+OK\r\n") = .ok (.simpleString (str "OK"), 5) := by decide
example : parse_resp (str ":1000\r\n") = .ok (.integer 1000, 7) := by decide
example : parse_resp (str "$5\r\nhello\r\n") = .ok (.bulkString (some (str "hello")), 11) := by
  decide
example : parse_resp (str "$-1\r\n") = .ok (.bulkString none, 5) := by decide
example : parse_resp (str "*2\r\n$5\r\nhello\r\n$5\r\nworld\r\n") =
    .ok (.array [.bulkString (some (str "hello")), .bulkString (some (str "world"))], 26) := by
  decide
example : encVal (.array [.bulkString (some (str "hi")), .integer (-3)]) =
    str "*2\r\n$2\r\nhi\r\n:-3\r\n" := by decide

/-! ## Storage engine (src/storage/mod.rs) -/

/-- `StorageConfig` from src/config.rs. -/
structure StorageConfig where
  max_memory : Nat
  persistence_enabled : Bool
deriving DecidableEq

/-- First value stored under a key, modelling `HashMap::get`. -/
def alistGet (m : List (Str × Str)) (k : Str) : Option Str :=
  match m with
  | [] => none
  | (k', v) :: t => if k' = k then some v else alistGet t k

/-- Replace the value under a key, or append a fresh entry, modelling
`HashMap::insert`. -/
def alistInsert (m : List (Str × Str)) (k v : Str) : List (Str × Str) :=
  match m with
  | [] => [(k, v)]
  | (k', v') :: t => if k' = k then (k, v) :: t else (k', v') :: alistInsert t k v

/-- Sum of `key.len() + value.len()` over all records. -/
def sizeSum : List (Str × Str) → Nat
  | [] => 0
  | (k, v) :: t => k.length + v.length + sizeSum t

/-- `Storage` from src/storage/mod.rs.  The `HashMap<String, String>` is
modelled as an association list with distinct keys. -/
structure Storage where
  data : List (Str × Str)
  config : StorageConfig
  current_memory : Nat
deriving DecidableEq

/-- `Storage::new`. -/
def Storage.new (config : StorageConfig) : Storage :=
  { data := [], config := config, current_memory := 0 }

/-- `Storage::insert`: check the memory ceiling, then account for a replaced
record, then store.  Returns the `bool` result together with the updated
storage. -/
def Storage.insert (s : Storage) (key value : Str) : Bool × Storage :=
  let entry_size := key.length + value.length
  if s.current_memory + entry_size > s.config.max_memory then (false, s)
  else
    let mem1 :=
      match alistGet s.data key with
      | some old_value => s.current_memory - (key.length + old_value.length)
      | none => s.current_memory
    (true, { s with data := alistInsert s.data key value,
                    current_memory := mem1 + entry_size })

/-- `Storage::get`. -/
def Storage.get (s : Storage) (key : Str) : Option Str :=
  alistGet s.data key

/-- `Storage::memory_usage`. -/
def Storage.memory_usage (s : Storage) : Nat := s.current_memory

/-- `Storage::is_persistence_enabled`. -/
def Storage.is_persistence_enabled (s : Storage) : Bool :=
  s.config.persistence_enabled

/-- `Storage::load_from_disk`, with the outcome of reading and deserializing
`dump.rdb` supplied as a parameter: `some m` models a successful read and
deserialization of the record map `m`, `none` models a failed read (the `if
let Ok` guard) or a deserialization error (in both cases the state is left
unchanged).  When persistence is enabled and the read succeeds the running
total is recomputed from scratch over the loaded records. -/
def Storage.load_from_disk (s : Storage) (fileData : Option (List (Str × Str))) : Storage :=
  if s.config.persistence_enabled then
    match fileData with
    | some m => { s with data := m, current_memory := sizeSum m }
    | none => s
  else s

/-- The memory-accounting invariant: the running total equals the exact sum
of `len(key) + len(value)` over all stored records. -/
def MemInv (s : Storage) : Prop := s.current_memory = sizeSum s.data

/-- Keys of the record map are pairwise distinct (always true of a
`HashMap`). -/
def keysNodup (m : List (Str × Str)) : Prop := (m.map Prod.fst).Nodup

/-- Number of records stored under a key. -/
def countKey (m : List (Str × Str)) (k : Str) : Nat :=
  (m.filter (fun p => p.1 = k)).length

/-- Fold a list of (key, value) pairs through `Storage::insert`, keeping the
per-call results. -/
def insertAll : Storage → List (Str × Str) → List Bool × Storage
  | s, [] => ([], s)
  | s, (k, v) :: rest =>
    let r := Storage.insert s k v
    let r2 := insertAll r.2 rest
    (r.1 :: r2.1, r2.2)

/-- Fold a list of (key, value) pairs through `Storage::insert`, keeping only
the final state. -/
def applyInserts (s : Storage) (ops : List (Str × Str)) : Storage :=
  ops.foldl (fun s p => (Storage.insert s p.1 p.2).2) s

/-! ## Command dispatch (src/commands/mod.rs) and the inline handler in
src/main.rs -/

/-- `Command` from src/commands/mod.rs. -/
inductive Command where
  | set : Str → Str → Command
  | get : Str → Command
  | info
  | cmdInfo
  | memory
  | save
deriving DecidableEq

/-- `CommandError` from src/commands/mod.rs. -/
inductive CommandError where
  | invalidFormat
  | unknownCommand : Str → CommandError
  | wrongNumberOfArguments
deriving DecidableEq

/-- The `thiserror` display strings of `CommandError`. -/
def cmdErrToString : CommandError → Str
  | .invalidFormat => str "invalid command format"
  | .unknownCommand s => str "unknown command: " ++ s
  | .wrongNumberOfArguments => str "wrong number of arguments for command"

/-- Rust's `str::split("\r\n")`: split at each non-overlapping occurrence of
CRLF, scanning left to right. -/
def splitCRLF : Str → List Str
  | [] => [[]]
  | '\r' :: '\n' :: rest => [] :: splitCRLF rest
  | c :: rest =>
    match splitCRLF rest with
    | [] => [[c]]
    | l :: ls => (c :: l) :: ls

/-- Rust's `str::starts_with(c)`. -/
def startsWithChar (c : Char) (s : Str) : Bool :=
  match s with
  | [] => false
  | c' :: _ => c' = c

/-- Rust's `str::to_uppercase` (ASCII-faithful). -/
def upperStr (s : Str) : Str := s.map Char.toUpper

/-- The argument-extraction loop shared by `Command::from_str` and main.rs's
`handle_command`: walk the CRLF-split lines, pairing each line that starts
with '$' with the line that follows it.  `none` models divergence: when the
final line starts with '$' the Rust loop never advances its index. -/
def extractArgs : List Str → List Str → Option (List Str)
  | [], acc => some acc
  | l :: rest, acc =>
    if startsWithChar '$' l then
      match rest with
      | next :: rest' => extractArgs rest' (acc ++ [next])
      | [] => none
    else extractArgs rest acc

/-- The `match args[0].to_uppercase()` stage of `Command::from_str`
(including the preceding `args.is_empty()` check). -/
def interpretArgs (args : List Str) : Except CommandError Command :=
  if args.isEmpty then .error .invalidFormat
  else
    let c := upperStr (args.headD [])
    if c = str "SET" then
      if args.length ≠ 3 then .error .wrongNumberOfArguments
      else .ok (.set (args.getD 1 []) (args.getD 2 []))
    else if c = str "GET" then
      if args.length ≠ 2 then .error .wrongNumberOfArguments
      else .ok (.get (args.getD 1 []))
    else if c = str "INFO" then .ok .info
    else if c = str "COMMAND" then .ok .cmdInfo
    else if c = str "MEMORY" then .ok .memory
    else if c = str "SAVE" then .ok .save
    else .error (.unknownCommand c)

/-- `Command::from_str` from src/commands/mod.rs.  `none` models the
divergence of the extraction loop on a trailing '$' line. -/
def commandFromStr (s : Str) : Option (Except CommandError Command) :=
  match splitCRLF s with
  | [] => some (.error .invalidFormat)
  | l0 :: rest =>
    if startsWithChar '*' l0 then
      match extractArgs rest [] with
      | some args => some (interpretArgs args)
      | none => none
    else some (.error .invalidFormat)

/-- Rust's `format!("{}", b)` for `bool`. -/
def boolStr (b : Bool) : Str := if b then str "true" else str "false"

/-- The INFO text assembled by the `Command::Info` arm of `handle_command`
in src/commands/mod.rs. -/
def infoString (s : Storage) : Str :=
  str "# Server\r\nredis_version:1.0.0\r\n# Memory\r\nused_memory:" ++
    natToStr (Storage.memory_usage s) ++
    str "\r\npersistence_enabled:" ++
    boolStr (Storage.is_persistence_enabled s) ++ str "\r\n"

/-- `usize as i64`: two's-complement reinterpretation. -/
def usizeAsI64 (n : Nat) : Int :=
  if n < 2 ^ 63 then (n : Int) else (n : Int) - 2 ^ 64

/-- `handle_command` from src/commands/mod.rs.  `saveOutcome` supplies the
result of the `fs::write` in `save_to_disk` when persistence is enabled
(`none` = success, `some e` = an I/O error rendered as `e`); the outer
`none` result models divergence of argument extraction. -/
def handleCommand (saveOutcome : Option Str) (cmd : Str) (db : Storage) :
    Option (RespValue × Storage) :=
  match commandFromStr cmd with
  | none => none
  | some (.error e) => some (.error (cmdErrToString e), db)
  | some (.ok c) =>
    match c with
    | .set k v =>
      let r := Storage.insert db k v
      if r.1 then some (.simpleString (str "OK"), r.2)
      else some (.error (str "ERR max memory limit exceeded"), r.2)
    | .get k =>
      match Storage.get db k with
      | some v => some (.bulkString (some v), db)
      | none => some (.bulkString none, db)
    | .cmdInfo => some (.array [], db)
    | .info => some (.bulkString (some (infoString db)), db)
    | .memory => some (.integer (usizeAsI64 (Storage.memory_usage db)), db)
    | .save =>
      if Storage.is_persistence_enabled db then
        match saveOutcome with
        | none => some (.simpleString (str "OK"), db)
        | some e => some (.error (str "ERR saving to disk: " ++ e), db)
      else some (.simpleString (str "OK"), db)

/-- The inline `handle_command` in src/main.rs (the handler actually wired to
the TCP loop): its own CRLF-split argument extraction over a plain
`HashMap<String, String>`, producing a raw reply string.  `none` models
divergence of the extraction loop. -/
def mainHandleCommand (cmd : Str) (db : List (Str × Str)) :
    Option (Str × List (Str × Str)) :=
  match splitCRLF cmd with
  | [] => some (str "-ERR empty command\r\n", db)
  | l0 :: rest =>
    if !startsWithChar '*' l0 then some (str "-ERR invalid RESP format\r\n", db)
    else
      match extractArgs rest [] with
      | none => none
      | some args =>
        if args.isEmpty then some (str "-ERR empty command\r\n", db)
        else
          let c := upperStr (args.headD [])
          if c = str "SET" then
            if args.length ≠ 3 then
              some (str "-ERR wrong number of arguments for 'set' command\r\n", db)
            else some (str "+OK\r\n", alistInsert db (args.getD 1 []) (args.getD 2 []))
          else if c = str "GET" then
            if args.length ≠ 2 then
              some (str "-ERR wrong number of arguments for 'get' command\r\n", db)
            else
              match alistGet db (args.getD 1 []) with
              | some v => some ('$' :: (natToStr v.length ++ CRLF ++ v ++ CRLF), db)
              | none => some (str "$-1\r\n", db)
          else if c = str "COMMAND" then
            if args.length = 1 then some (str "*0\r\n", db)
            else some (str "*-1\r\n", db)
          else if c = str "INFO" then
            let infoS := str "# Server\r\nredis_version:1.0.0\r\n"
            some ('$' :: (natToStr infoS.length ++ CRLF ++ infoS ++ CRLF), db)
          else some (str "-ERR unknown command\r\n", db)

/-- Concatenate a list of strings. -/
def catList : List Str → Str
  | [] => []
  | s :: rest => s ++ catList rest

/-- A RESP array frame with an arbitrary count line and arbitrary declared
bulk lengths: `'*' ++ count ++ CRLF` followed, for each (declaredLen, arg)
pair, by `'$' ++ declaredLen ++ CRLF ++ arg ++ CRLF`. -/
def mkFrameJ (count : Str) (pairs : List (Str × Str)) : Str :=
  '*' :: (count ++ CRLF ++
    catList (pairs.map (fun p => '$' :: (p.1 ++ CRLF ++ p.2 ++ CRLF))))

/-- A correctly length-prefixed RESP array frame for a list of arguments, as
the repository's own tests build them. -/
def mkFrame (args : List Str) : Str :=
  mkFrameJ (natToStr args.length) (args.map (fun a => (natToStr a.length, a)))

/-- Boolean "is prefix" test on character lists. -/
def isPfx : Str → Str → Bool
  | [], _ => true
  | _ :: _, [] => false
  | a :: as, b :: bs => a = b && isPfx as bs

/-- Boolean substring test: `pat` occurs contiguously in the string. -/
def containsStr (pat : Str) : Str → Bool
  | [] => isPfx pat []
  | c :: t => isPfx pat (c :: t) || containsStr pat t

example : mkFrame [str "SET", str "key1", str "value1"] =
    str "*3\r\n$3\r\nSET\r\n$4\r\nkey1\r\n$6\r\nvalue1\r\n" := by decide
example : commandFromStr (str "*3\r\n$3\r\nSET\r\n$4\r\nkey1\r\n$6\r\nvalue1\r\n") =
    some (.ok (.set (str "key1") (str "value1"))) := by decide
example : commandFromStr (str "*2\r\n$3\r\nGET\r\n$4\r\nkey1\r\n") =
    some (.ok (.get (str "key1"))) := by decide

/-! ## Lemmas about `findCRLF` -/

theorem findCRLF_cons_cons (c1 c2 : Char) (t : Str) :
    findCRLF (c1 :: c2 :: t) =
      if c1 = '\r' ∧ c2 = '\n' then some 0
      else (findCRLF (c2 :: t)).map (fun n => n + 1) := rfl

theorem findCRLF_none_of_no_cr {s : Str} (h : ∀ c ∈ s, c ≠ '\r') :
    findCRLF s = none := by
  induction s with
  | nil => rfl
  | cons c t ih =>
    cases t with
    | nil => rfl
    | cons c2 t2 =>
      rw [findCRLF_cons_cons]
      have hc : c ≠ '\r' := h c (by simp)
      rw [if_neg (by tauto)]
      rw [ih (fun x hx => h x (by simp [hx]))]
      rfl

theorem findCRLF_append_crlf {a : Str} (r : Str) (h : findCRLF a = none) :
    findCRLF (a ++ '\r' :: '\n' :: r) = some a.length := by
  induction a with
  | nil => simp [findCRLF_cons_cons]
  | cons c t ih =>
    cases t with
    | nil =>
      show findCRLF (c :: '\r' :: '\n' :: r) = some 1
      rw [findCRLF_cons_cons, if_neg (by simp), findCRLF_cons_cons, if_pos (by simp)]
      rfl
    | cons c2 t2 =>
      rw [findCRLF_cons_cons] at h
      by_cases hw : c = '\r' ∧ c2 = '\n'
      · rw [if_pos hw] at h; exact absurd h (by simp)
      · rw [if_neg hw] at h
        have h2 : findCRLF (c2 :: t2) = none := by
          cases hfind : findCRLF (c2 :: t2) with
          | none => rfl
          | some e => rw [hfind] at h; simp at h
        show findCRLF (c :: c2 :: (t2 ++ '\r' :: '\n' :: r)) = some (t2.length + 2)
        rw [findCRLF_cons_cons, if_neg hw]
        have := ih h2
        rw [show (c2 :: t2) ++ '\r' :: '\n' :: r = c2 :: (t2 ++ '\r' :: '\n' :: r)
          from rfl] at this
        rw [this]
        simp

theorem findCRLF_take_none {s : Str} {e : Nat} (h : findCRLF s = some e)
    {j : Nat} (hj : j < e + 2) : findCRLF (s.take j) = none := by
  induction s generalizing e j with
  | nil => simp [findCRLF] at h
  | cons c t ih =>
    cases t with
    | nil => simp [findCRLF] at h
    | cons c2 t2 =>
      rw [findCRLF_cons_cons] at h
      by_cases hw : c = '\r' ∧ c2 = '\n'
      · rw [if_pos hw] at h
        have he : e = 0 := by simpa using h.symm
        subst he
        interval_cases j
        · rfl
        · rcases hw with ⟨rfl, _⟩; rfl
      · rw [if_neg hw] at h
        cases hfind : findCRLF (c2 :: t2) with
        | none => rw [hfind] at h; simp at h
        | some e' =>
          rw [hfind] at h
          have he : e = e' + 1 := by simpa using h.symm
          subst he
          match j with
          | 0 => rfl
          | 1 => rfl
          | j' + 2 =>
            show findCRLF (c :: c2 :: t2.take j') = none
            rw [findCRLF_cons_cons, if_neg hw]
            have h2 : findCRLF ((c2 :: t2).take (j' + 1)) = none := ih hfind (by omega)
            rw [List.take_succ_cons] at h2
            rw [h2]
            rfl

theorem findCRLF_take_some {s : Str} {e : Nat} (h : findCRLF s = some e)
    {j : Nat} (hj : e + 2 ≤ j) : findCRLF (s.take j) = some e := by
  induction s generalizing e j with
  | nil => simp [findCRLF] at h
  | cons c t ih =>
    cases t with
    | nil => simp [findCRLF] at h
    | cons c2 t2 =>
      rw [findCRLF_cons_cons] at h
      by_cases hw : c = '\r' ∧ c2 = '\n'
      · rw [if_pos hw] at h
        have he : e = 0 := by simpa using h.symm
        subst he
        obtain ⟨j', rfl⟩ : ∃ j', j = j' + 2 := ⟨j - 2, by omega⟩
        show findCRLF (c :: c2 :: t2.take j') = some 0
        rw [findCRLF_cons_cons, if_pos hw]
      · rw [if_neg hw] at h
        cases hfind : findCRLF (c2 :: t2) with
        | none => rw [hfind] at h; simp at h
        | some e' =>
          rw [hfind] at h
          have he : e = e' + 1 := by simpa using h.symm
          subst he
          obtain ⟨j', rfl⟩ : ∃ j', j = j' + 2 := ⟨j - 2, by omega⟩
          show findCRLF (c :: c2 :: t2.take j') = some (e' + 1)
          rw [findCRLF_cons_cons, if_neg hw]
          have h2 : findCRLF ((c2 :: t2).take (j' + 1)) = some e' := ih hfind (by omega)
          rw [List.take_succ_cons] at h2
          rw [h2]
          rfl

theorem hasCRLF_false_iff {s : Str} : hasCRLF s = false ↔ findCRLF s = none := by
  unfold hasCRLF
  cases findCRLF s <;> simp

/-! ## Lemmas about decimal digits and `parseI64` -/

theorem digitChar_isDigit (d : Nat) : (digitChar d).isDigit = true := by
  unfold digitChar; split <;> decide

theorem digitChar_ne_cr (d : Nat) : digitChar d ≠ '\r' := by
  unfold digitChar; split <;> decide

theorem digitVal_digitChar {d : Nat} (h : d < 10) : digitVal (digitChar d) = d := by
  interval_cases d <;> decide

theorem isDigit_ne_minus {c : Char} (h : c.isDigit = true) : c ≠ '-' := by
  intro he; subst he; simp [Char.isDigit] at h

theorem isDigit_ne_plus {c : Char} (h : c.isDigit = true) : c ≠ '+' := by
  intro he; subst he; simp [Char.isDigit] at h

theorem isDigit_ne_cr {c : Char} (h : c.isDigit = true) : c ≠ '\r' := by
  intro he; subst he; simp [Char.isDigit] at h

theorem natDigitsRev_eq_digits {fuel n : Nat} (h : n ≤ fuel) :
    natDigitsRev fuel n = Nat.digits 10 n := by
  induction fuel generalizing n with
  | zero =>
    have : n = 0 := by omega
    subst this; simp [natDigitsRev]
  | succ f ih =>
    unfold natDigitsRev
    by_cases hn : n = 0
    · subst hn; simp
    · have hd : n / 10 < n := Nat.div_lt_self (Nat.pos_of_ne_zero hn) (by norm_num)
      rw [if_neg hn, ih (by omega)]
      rw [Nat.digits_def' (by norm_num : (1:ℕ) < 10) (Nat.pos_of_ne_zero hn)]

theorem natToStr_eq (n : Nat) :
    natToStr n = if n = 0 then ['0'] else ((Nat.digits 10 n).map digitChar).reverse := by
  unfold natToStr
  by_cases hn : n = 0
  · simp [hn]
  · rw [if_neg hn, if_neg hn, natDigitsRev_eq_digits (le_refl n)]

theorem natToStr_ne_nil (n : Nat) : natToStr n ≠ [] := by
  rw [natToStr_eq]
  by_cases hn : n = 0
  · simp [hn]
  · rw [if_neg hn]
    simp [Nat.digits_ne_nil_iff_ne_zero.mpr hn]

theorem mem_natToStr_isDigit {n : Nat} {c : Char} (h : c ∈ natToStr n) :
    c.isDigit = true := by
  rw [natToStr_eq] at h
  by_cases hn : n = 0
  · rw [if_pos hn] at h; simp at h; subst h; decide
  · rw [if_neg hn] at h
    simp only [List.mem_reverse, List.mem_map] at h
    obtain ⟨d, _, rfl⟩ := h
    exact digitChar_isDigit d

theorem findCRLF_natToStr (n : Nat) : findCRLF (natToStr n) = none :=
  findCRLF_none_of_no_cr (fun c hc => isDigit_ne_cr (mem_natToStr_isDigit hc))

theorem findCRLF_intToStr (i : Int) : findCRLF (intToStr i) = none := by
  apply findCRLF_none_of_no_cr
  intro c hc
  unfold intToStr at hc
  by_cases hi : i < 0
  · rw [if_pos hi] at hc
    rcases List.mem_cons.mp hc with h | h
    · subst h; decide
    · exact isDigit_ne_cr (mem_natToStr_isDigit h)
  · rw [if_neg hi] at hc
    exact isDigit_ne_cr (mem_natToStr_isDigit hc)

theorem digitsToNat_append (a b : Str) :
    digitsToNat (a ++ b) = b.foldl (fun x c => x * 10 + digitVal c) (digitsToNat a) := by
  simp [digitsToNat, List.foldl_append]

theorem digitsToNat_rev_map {L : List Nat} (h : ∀ d ∈ L, d < 10) :
    digitsToNat ((L.map digitChar).reverse) = Nat.ofDigits 10 L := by
  induction L with
  | nil => simp [digitsToNat, Nat.ofDigits_nil]
  | cons d L' ih =>
    simp only [List.map_cons, List.reverse_cons]
    rw [digitsToNat_append]
    rw [ih (fun x hx => h x (by simp [hx]))]
    simp only [List.foldl_cons, List.foldl_nil]
    rw [digitVal_digitChar (h d (by simp))]
    rw [Nat.ofDigits_cons]
    ring

theorem digitsToNat_natToStr (n : Nat) : digitsToNat (natToStr n) = n := by
  rw [natToStr_eq]
  by_cases hn : n = 0
  · subst hn; decide
  · rw [if_neg hn]
    rw [digitsToNat_rev_map (fun d hd => Nat.digits_lt_base (by norm_num) hd)]
    exact_mod_cast Nat.ofDigits_digits 10 n

theorem i64core_digits {ds : Str} (hne : ds ≠ []) (hdig : ∀ c ∈ ds, c.isDigit = true)
    {neg : Bool} :
    i64core neg ds =
      if neg then (if digitsToNat ds ≤ 2 ^ 63 then some (-(digitsToNat ds : Int)) else none)
      else (if digitsToNat ds < 2 ^ 63 then some ((digitsToNat ds : Int)) else none) := by
  unfold i64core
  rw [if_neg (by simpa [List.isEmpty_iff] using hne)]
  rw [if_pos (by rw [List.all_eq_true]; exact fun c hc => hdig c hc)]

theorem parseI64_natToStr {n : Nat} (h : n < 2 ^ 63) :
    parseI64 (natToStr n) = some (n : Int) := by
  obtain ⟨c, rest, hcr⟩ : ∃ c rest, natToStr n = c :: rest := by
    cases hnn : natToStr n with
    | nil => exact absurd hnn (natToStr_ne_nil n)
    | cons c rest => exact ⟨c, rest, rfl⟩
  have hcd : c.isDigit = true := mem_natToStr_isDigit (by rw [hcr]; simp)
  rw [hcr]
  simp only [parseI64]
  rw [if_neg (isDigit_ne_minus hcd), if_neg (isDigit_ne_plus hcd)]
  rw [i64core_digits (by simp) (by rw [← hcr]; exact fun x hx => mem_natToStr_isDigit hx)]
  simp only [if_false, Bool.false_eq_true]
  rw [← hcr, digitsToNat_natToStr, if_pos h]

theorem parseI64_intToStr {i : Int} (h1 : -(2 ^ 63) ≤ i) (h2 : i < 2 ^ 63) :
    parseI64 (intToStr i) = some i := by
  unfold intToStr
  by_cases hi : i < 0
  · rw [if_pos hi]
    simp only [parseI64, if_true]
    rw [i64core_digits (natToStr_ne_nil _) (fun c hc => mem_natToStr_isDigit hc)]
    rw [if_pos rfl, digitsToNat_natToStr, if_pos (by omega)]
    congr 1
    omega
  · rw [if_neg hi]
    rw [parseI64_natToStr (by omega)]
    congr 1
    omega

example : parseI64 (str "-1") = some (-1) := by decide
example : parseI64 (intToStr (-42)) = some (-42) := parseI64_intToStr (by norm_num) (by norm_num)

/-! ## The encode/decode round-trip -/

theorem encVal_ne_nil (v : RespValue) : encVal v ≠ [] := by
  cases v with
  | simpleString s => simp [encVal]
  | error s => simp [encVal]
  | integer n => simp [encVal]
  | bulkString o => cases o <;> simp [encVal]
  | array items => simp [encVal]

theorem natToStr_length_pos (n : Nat) : 0 < (natToStr n).length := by
  cases hn : natToStr n with
  | nil => exact absurd hn (natToStr_ne_nil n)
  | cons c t => simp

theorem wfB_simpleString {s : Str} (h : wfB (.simpleString s) = true) :
    findCRLF s = none := by
  rw [← hasCRLF_false_iff]
  simpa [wfB] using h

theorem wfB_error {s : Str} (h : wfB (.error s) = true) : findCRLF s = none := by
  rw [← hasCRLF_false_iff]
  simpa [wfB] using h

theorem wfB_integer {n : Int} (h : wfB (.integer n) = true) :
    -(2 ^ 63) ≤ n ∧ n < 2 ^ 63 := by
  simpa [wfB] using h

theorem wfB_bulkSome {s : Str} (h : wfB (.bulkString (some s)) = true) :
    s.length < 2 ^ 63 := by
  simpa [wfB] using h

theorem wfB_array {items : List RespValue} (h : wfB (.array items) = true) :
    items.length < 2 ^ 63 ∧ wfList items = true := by
  simpa [wfB] using h

theorem wfList_cons {v : RespValue} {vs : List RespValue}
    (h : wfList (v :: vs) = true) : wfB v = true ∧ wfList vs = true := by
  simpa [wfList] using h

/-! Definitional equations of the fueled parser and the encoder, stated per
leading marker character. -/

theorem parseRespF_plus (f : Nat) (t : Str) :
    parseRespF (f + 1) ('+' :: t) =
      (match findCRLF t with
      | none => .error .incomplete
      | some e => .ok (.simpleString (t.take e), e + 3)) := rfl

theorem parseRespF_minus (f : Nat) (t : Str) :
    parseRespF (f + 1) ('-' :: t) =
      (match findCRLF t with
      | none => .error .incomplete
      | some e => .ok (.error (t.take e), e + 3)) := rfl

theorem parseRespF_colon (f : Nat) (t : Str) :
    parseRespF (f + 1) (':' :: t) =
      (match findCRLF t with
      | none => .error .incomplete
      | some e =>
        match parseI64 (t.take e) with
        | none => .error .invalidFormat
        | some num => .ok (.integer num, e + 3)) := rfl

theorem parseRespF_dollar (f : Nat) (t : Str) :
    parseRespF (f + 1) ('$' :: t) =
      (match findCRLF t with
      | none => .error .incomplete
      | some e =>
        match parseI64 (t.take e) with
        | none => .error .invalidFormat
        | some len =>
          if len = -1 then .ok (.bulkString none, e + 3)
          else
            let lnat : Nat := (len % (2 ^ 64 : Int)).toNat
            let rest := t.drop (e + 2)
            if rest.length < lnat + 2 then .error .incomplete
            else if (rest.drop lnat).take 2 = ['\r', '\n']
            then .ok (.bulkString (some (rest.take lnat)), e + lnat + 5)
            else .error .invalidFormat) := rfl

theorem parseRespF_star (f : Nat) (t : Str) :
    parseRespF (f + 1) ('*' :: t) =
      (match findCRLF t with
      | none => .error .incomplete
      | some e =>
        match parseI64 (t.take e) with
        | none => .error .invalidFormat
        | some len =>
          if len = -1 then .ok (.array [], e + 3)
          else
            match parseElemsF f (t.drop (e + 2)) len.toNat with
            | .ok (items, l2) => .ok (.array items, e + 3 + l2)
            | .error err => .error err) := rfl

theorem parseElemsF_zero (f : Nat) (rem : Str) :
    parseElemsF (f + 1) rem 0 = .ok ([], 0) := rfl

theorem parseElemsF_succ (f : Nat) (rem : Str) (n : Nat) :
    parseElemsF (f + 1) rem (n + 1) =
      (if rem.isEmpty then .error .incomplete
      else
        match parseRespF f rem with
        | .ok (v, len) =>
          match parseElemsF f (rem.drop len) n with
          | .ok (vs, l2) => .ok (v :: vs, len + l2)
          | .error err => .error err
        | .error err => .error err) := rfl

theorem encVal_simple (s : Str) : encVal (.simpleString s) = '+' :: (s ++ CRLF) := rfl

theorem encVal_err (s : Str) : encVal (.error s) = '-' :: (s ++ CRLF) := rfl

theorem encVal_integer (n : Int) : encVal (.integer n) = ':' :: (intToStr n ++ CRLF) := rfl

theorem encVal_bulkNone : encVal (.bulkString none) = '$' :: '-' :: '1' :: CRLF := rfl

theorem encVal_bulkSome (s : Str) :
    encVal (.bulkString (some s)) = '$' :: (natToStr s.length ++ CRLF ++ s ++ CRLF) := rfl

theorem encVal_array (items : List RespValue) :
    encVal (.array items) = '*' :: (natToStr items.length ++ CRLF ++ encList items) := rfl

theorem encList_nil : encList [] = [] := rfl

theorem encList_cons (v : RespValue) (vs : List RespValue) :
    encList (v :: vs) = encVal v ++ encList vs := rfl

/-- Core fueled round-trip: parsing an encoding followed by arbitrary extra
input succeeds, returns the encoded value, and consumes exactly the
encoding. -/
theorem parse_enc_fuel :
    ∀ f : Nat,
      (∀ (v : RespValue) (r : Str), wfB v = true → (encVal v ++ r).length ≤ f →
        parseRespF f (encVal v ++ r) = .ok (v, (encVal v).length)) ∧
      (∀ (items : List RespValue) (r : Str), wfList items = true →
        (encList items ++ r).length + 1 ≤ f →
        parseElemsF f (encList items ++ r) items.length = .ok (items, (encList items).length)) := by
  intro f
  induction f with
  | zero =>
    constructor
    · intro v r hwf hlen
      exfalso
      have h1 : encVal v ≠ [] := encVal_ne_nil v
      have h2 : (encVal v ++ r).length = (encVal v).length + r.length := by simp
      have h3 : 0 < (encVal v).length := List.length_pos.mpr h1
      omega
    · intro items r hwf hlen
      omega
  | succ f ih =>
    obtain ⟨ihR, ihE⟩ := ih
    constructor
    · intro v r hwf hlen
      cases v with
      | simpleString s =>
        have hfind := wfB_simpleString hwf
        rw [encVal_simple]
        rw [show ('+' :: (s ++ CRLF)) ++ r = '+' :: (s ++ ('\r' :: '\n' :: r)) by
          simp [CRLF]]
        rw [parseRespF_plus]
        rw [findCRLF_append_crlf r hfind]
        dsimp only
        rw [List.take_left]
        simp [CRLF]
      | error s =>
        have hfind := wfB_error hwf
        rw [encVal_err]
        rw [show ('-' :: (s ++ CRLF)) ++ r = '-' :: (s ++ ('\r' :: '\n' :: r)) by
          simp [CRLF]]
        rw [parseRespF_minus]
        rw [findCRLF_append_crlf r hfind]
        dsimp only
        rw [List.take_left]
        simp [CRLF]
      | integer n =>
        obtain ⟨hn1, hn2⟩ := wfB_integer hwf
        rw [encVal_integer]
        rw [show (':' :: (intToStr n ++ CRLF)) ++ r =
            ':' :: (intToStr n ++ ('\r' :: '\n' :: r)) by simp [CRLF]]
        rw [parseRespF_colon]
        rw [findCRLF_append_crlf r (findCRLF_intToStr n)]
        dsimp only
        rw [List.take_left]
        rw [parseI64_intToStr hn1 hn2]
        dsimp only
        simp [CRLF]
      | bulkString o =>
        cases o with
        | none =>
          rw [encVal_bulkNone]
          rw [show ('$' :: '-' :: '1' :: CRLF) ++ r = '$' :: '-' :: '1' :: '\r' :: '\n' :: r
            from rfl]
          rw [parseRespF_dollar]
          have hfind : findCRLF ('-' :: '1' :: '\r' :: '\n' :: r) = some 2 := by
            rw [findCRLF_cons_cons, if_neg (by decide), findCRLF_cons_cons,
              if_neg (by decide), findCRLF_cons_cons, if_pos (by decide)]
            rfl
          rw [hfind]
          dsimp only
          rw [show List.take 2 ('-' :: '1' :: '\r' :: '\n' :: r) = ['-', '1'] from rfl]
          rw [show parseI64 ['-', '1'] = some (-1) by decide]
          dsimp only
          rw [if_pos rfl]
          simp [CRLF]
        | some s =>
          have hslen := wfB_bulkSome hwf
          rw [encVal_bulkSome]
          rw [show ('$' :: (natToStr s.length ++ CRLF ++ s ++ CRLF)) ++ r =
              '$' :: (natToStr s.length ++ ('\r' :: '\n' :: (s ++ ('\r' :: '\n' :: r)))) by
            simp [CRLF]]
          rw [parseRespF_dollar]
          rw [findCRLF_append_crlf _ (findCRLF_natToStr s.length)]
          dsimp only
          rw [List.take_left]
          rw [parseI64_natToStr hslen]
          dsimp only
          rw [if_neg (by omega)]
          have hmod : (((s.length : Int)) % (2 ^ 64 : Int)).toNat = s.length := by
            rw [Int.emod_eq_of_lt (by positivity) (by
              have : (s.length : Int) < 2 ^ 63 := by exact_mod_cast hslen
              omega)]
            exact Int.toNat_natCast s.length
          rw [hmod]
          have hdrop : (natToStr s.length ++
              ('\r' :: '\n' :: (s ++ ('\r' :: '\n' :: r)))).drop
                ((natToStr s.length).length + 2) = s ++ ('\r' :: '\n' :: r) := by
            rw [show natToStr s.length ++ ('\r' :: '\n' :: (s ++ ('\r' :: '\n' :: r))) =
                (natToStr s.length ++ ['\r', '\n']) ++ (s ++ ('\r' :: '\n' :: r)) by simp]
            rw [show (natToStr s.length).length + 2 =
                (natToStr s.length ++ ['\r', '\n']).length by simp]
            exact List.drop_left _ _
          rw [hdrop]
          rw [if_neg (by
            simp only [List.length_append, List.length_cons]
            omega)]
          rw [show (s ++ ('\r' :: '\n' :: r)).drop s.length = '\r' :: '\n' :: r from
            List.drop_left s _]
          rw [if_pos (show List.take 2 ('\r' :: '\n' :: r) = ['\r', '\n'] from rfl)]
          rw [List.take_left]
          simp [CRLF]
          omega
      | array items =>
        obtain ⟨hcount, hwfl⟩ := wfB_array hwf
        rw [encVal_array]
        rw [show ('*' :: (natToStr items.length ++ CRLF ++ encList items)) ++ r =
            '*' :: (natToStr items.length ++ ('\r' :: '\n' :: (encList items ++ r))) by
          simp [CRLF]]
        rw [parseRespF_star]
        rw [findCRLF_append_crlf _ (findCRLF_natToStr items.length)]
        dsimp only
        rw [List.take_left]
        rw [parseI64_natToStr hcount]
        dsimp only
        rw [if_neg (by omega)]
        have hdrop : (natToStr items.length ++
            ('\r' :: '\n' :: (encList items ++ r))).drop
              ((natToStr items.length).length + 2) = encList items ++ r := by
          rw [show natToStr items.length ++ ('\r' :: '\n' :: (encList items ++ r)) =
              (natToStr items.length ++ ['\r', '\n']) ++ (encList items ++ r) by simp]
          rw [show (natToStr items.length).length + 2 =
              (natToStr items.length ++ ['\r', '\n']).length by simp]
          exact List.drop_left _ _
        rw [hdrop]
        rw [Int.toNat_natCast]
        have hfuel : (encList items ++ r).length + 1 ≤ f := by
          have h1 := natToStr_length_pos items.length
          rw [encVal_array] at hlen
          simp only [CRLF, List.length_append, List.length_cons, List.length_nil] at hlen
          simp only [List.length_append]
          omega
        rw [ihE items r hwfl hfuel]
        dsimp only
        simp [CRLF]
        omega
    · intro items r hwfl hlen
      cases items with
      | nil =>
        rw [encList_nil, List.nil_append, List.length_nil, parseElemsF_zero]
        simp
      | cons v vs =>
        obtain ⟨hwv, hwvs⟩ := wfList_cons hwfl
        rw [encList_cons] at hlen ⊢
        rw [show (encVal v ++ encList vs) ++ r = encVal v ++ (encList vs ++ r) by simp]
          at hlen ⊢
        rw [show (v :: vs).length = vs.length + 1 from rfl]
        rw [parseElemsF_succ]
        rw [if_neg (by
          simp only [List.isEmpty_iff, List.append_eq_nil]
          intro h
          exact encVal_ne_nil v h.1)]
        have hfuelv : (encVal v ++ (encList vs ++ r)).length ≤ f := by
          simp only [List.length_append] at hlen ⊢
          omega
        rw [ihR v (encList vs ++ r) hwv hfuelv]
        dsimp only
        rw [show (encVal v ++ (encList vs ++ r)).drop (encVal v).length =
            encList vs ++ r from List.drop_left _ _]
        have hfuelvs : (encList vs ++ r).length + 1 ≤ f := by
          have h3 : 0 < (encVal v).length := List.length_pos.mpr (encVal_ne_nil v)
          simp only [List.length_append] at hfuelv ⊢
          omega
        rw [ihE vs r hwvs hfuelvs]
        dsimp only
        simp [List.length_append]

/-- Round-trip with a suffix, stated for `parse_resp`. -/
theorem parse_resp_enc_append (v : RespValue) (r : Str) (hwf : wfB v = true) :
    parse_resp (encVal v ++ r) = .ok (v, (encVal v).length) := by
  unfold parse_resp
  exact (parse_enc_fuel ((encVal v ++ r).length + 1)).1 v r hwf (by omega)

/-- Round-trip: decoding the encoding of a well-formed value yields the value
back together with the full length of the encoding. -/
theorem parse_resp_enc (v : RespValue) (hwf : wfB v = true) :
    parse_resp (encVal v) = .ok (v, (encVal v).length) := by
  have := parse_resp_enc_append v [] hwf
  simpa using this

/-! ## Strict prefixes of valid encodings parse as Incomplete -/

theorem parseRespF_nil (f : Nat) : parseRespF (f + 1) [] = .error .incomplete := rfl

theorem parseRespF_zero (s : Str) : parseRespF 0 s = .error .incomplete := rfl

/-- Core fueled prefix property: parsing any strict prefix of the encoding of
a well-formed value reports `Incomplete` (never a format error and never a
bogus success). -/
theorem parse_prefix_fuel :
    ∀ f : Nat,
      (∀ (v : RespValue) (i : Nat), wfB v = true → i < (encVal v).length → i ≤ f →
        parseRespF f ((encVal v).take i) = .error .incomplete) ∧
      (∀ (items : List RespValue) (j : Nat), wfList items = true →
        j < (encList items).length → j + 2 ≤ f →
        parseElemsF f ((encList items).take j) items.length = .error .incomplete) := by
  intro f
  induction f with
  | zero =>
    constructor
    · intro v i hwf hil hif
      exact parseRespF_zero _
    · intro items j hwf hjl hjf
      omega
  | succ f ih =>
    obtain ⟨ihP, ihL⟩ := ih
    constructor
    · intro v i hwf hil hif
      cases i with
      | zero => rw [List.take_zero]; exact parseRespF_nil f
      | succ j =>
        cases v with
        | simpleString s =>
          have hfind : findCRLF s = none := wfB_simpleString hwf
          have hfull : findCRLF (s ++ CRLF) = some s.length := by
            rw [show s ++ CRLF = s ++ '\r' :: '\n' :: ([] : Str) from rfl]
            exact findCRLF_append_crlf [] hfind
          rw [encVal_simple] at hil ⊢
          rw [List.take_succ_cons, parseRespF_plus]
          rw [findCRLF_take_none hfull (by
            simp only [List.length_cons, List.length_append, CRLF, List.length_nil] at hil
            omega)]
        | error s =>
          have hfind : findCRLF s = none := wfB_error hwf
          have hfull : findCRLF (s ++ CRLF) = some s.length := by
            rw [show s ++ CRLF = s ++ '\r' :: '\n' :: ([] : Str) from rfl]
            exact findCRLF_append_crlf [] hfind
          rw [encVal_err] at hil ⊢
          rw [List.take_succ_cons, parseRespF_minus]
          rw [findCRLF_take_none hfull (by
            simp only [List.length_cons, List.length_append, CRLF, List.length_nil] at hil
            omega)]
        | integer n =>
          have hfull : findCRLF (intToStr n ++ CRLF) = some (intToStr n).length := by
            rw [show intToStr n ++ CRLF = intToStr n ++ '\r' :: '\n' :: ([] : Str) from rfl]
            exact findCRLF_append_crlf [] (findCRLF_intToStr n)
          rw [encVal_integer] at hil ⊢
          rw [List.take_succ_cons, parseRespF_colon]
          rw [findCRLF_take_none hfull (by
            simp only [List.length_cons, List.length_append, CRLF, List.length_nil] at hil
            omega)]
        | bulkString o =>
          cases o with
          | none =>
            rw [encVal_bulkNone] at hil ⊢
            simp only [CRLF, List.length_cons, List.length_nil] at hil
            have hb : j < 4 := by omega
            interval_cases j <;> rfl
          | some s =>
            have hslen := wfB_bulkSome hwf
            rw [encVal_bulkSome] at hil ⊢
            rw [show ('$' :: (natToStr s.length ++ CRLF ++ s ++ CRLF) : Str) =
                '$' :: (natToStr s.length ++
                  ('\r' :: '\n' :: (s ++ ['\r', '\n']))) by simp [CRLF]] at hil ⊢
            have hfull : findCRLF (natToStr s.length ++
                ('\r' :: '\n' :: (s ++ ['\r', '\n']))) =
                some (natToStr s.length).length :=
              findCRLF_append_crlf _ (findCRLF_natToStr s.length)
            rw [List.take_succ_cons, parseRespF_dollar]
            simp only [List.length_cons, List.length_append, List.length_nil] at hil
            by_cases hj : j < (natToStr s.length).length + 2
            · rw [findCRLF_take_none hfull hj]
            · rw [findCRLF_take_some hfull (by omega)]
              dsimp only
              rw [List.take_take]
              rw [show min (natToStr s.length).length j = (natToStr s.length).length by
                omega]
              rw [show (natToStr s.length ++
                  ('\r' :: '\n' :: (s ++ ['\r', '\n']))).take (natToStr s.length).length =
                natToStr s.length from List.take_left _ _]
              rw [parseI64_natToStr hslen]
              dsimp only
              rw [if_neg (by omega)]
              have hmod : (((s.length : Int)) % (2 ^ 64 : Int)).toNat = s.length := by
                rw [Int.emod_eq_of_lt (by positivity) (by
                  have : (s.length : Int) < 2 ^ 63 := by exact_mod_cast hslen
                  omega)]
                exact Int.toNat_natCast s.length
              rw [hmod]
              rw [List.drop_take]
              rw [show (natToStr s.length ++
                  ('\r' :: '\n' :: (s ++ ['\r', '\n']))).drop
                    ((natToStr s.length).length + 2) = s ++ ['\r', '\n'] by
                rw [show natToStr s.length ++ ('\r' :: '\n' :: (s ++ ['\r', '\n'])) =
                    (natToStr s.length ++ ['\r', '\n']) ++ (s ++ ['\r', '\n']) by simp]
                rw [show (natToStr s.length).length + 2 =
                    (natToStr s.length ++ ['\r', '\n']).length by simp]
                exact List.drop_left _ _]
              rw [if_pos (by
                simp only [List.length_take, List.length_append, List.length_cons,
                  List.length_nil]
                omega)]
        | array items =>
          obtain ⟨hcount, hwfl⟩ := wfB_array hwf
          rw [encVal_array] at hil ⊢
          rw [show ('*' :: (natToStr items.length ++ CRLF ++ encList items) : Str) =
              '*' :: (natToStr items.length ++
                ('\r' :: '\n' :: encList items)) by simp [CRLF]] at hil ⊢
          have hfull : findCRLF (natToStr items.length ++
              ('\r' :: '\n' :: encList items)) = some (natToStr items.length).length :=
            findCRLF_append_crlf _ (findCRLF_natToStr items.length)
          rw [List.take_succ_cons, parseRespF_star]
          simp only [List.length_cons, List.length_append, List.length_nil] at hil
          by_cases hj : j < (natToStr items.length).length + 2
          · rw [findCRLF_take_none hfull hj]
          · rw [findCRLF_take_some hfull (by omega)]
            dsimp only
            rw [List.take_take]
            rw [show min (natToStr items.length).length j = (natToStr items.length).length by
              omega]
            rw [show (natToStr items.length ++
                ('\r' :: '\n' :: encList items)).take (natToStr items.length).length =
              natToStr items.length from List.take_left _ _]
            rw [parseI64_natToStr hcount]
            dsimp only
            rw [if_neg (by omega)]
            rw [Int.toNat_natCast]
            rw [List.drop_take]
            rw [show (natToStr items.length ++
                ('\r' :: '\n' :: encList items)).drop
                  ((natToStr items.length).length + 2) = encList items by
              rw [show natToStr items.length ++ ('\r' :: '\n' :: encList items) =
                  (natToStr items.length ++ ['\r', '\n']) ++ encList items by simp]
              rw [show (natToStr items.length).length + 2 =
                  (natToStr items.length ++ ['\r', '\n']).length by simp]
              exact List.drop_left _ _]
            have h1 := natToStr_length_pos items.length
            rw [ihL items (j - ((natToStr items.length).length + 2)) hwfl
              (by omega) (by omega)]
    · intro items j hwfl hjl hjf
      cases items with
      | nil =>
        rw [encList_nil] at hjl
        simp at hjl
      | cons v vs =>
        obtain ⟨hwv, hwvs⟩ := wfList_cons hwfl
        rw [encList_cons] at hjl ⊢
        rw [show (v :: vs).length = vs.length + 1 from rfl]
        obtain ⟨f', rfl⟩ : ∃ f', f = f' + 1 := ⟨f - 1, by omega⟩
        rw [parseElemsF_succ]
        have hev : 0 < (encVal v).length := List.length_pos.mpr (encVal_ne_nil v)
        cases Nat.lt_or_ge j 1 with
        | inl hj0 =>
          have : j = 0 := by omega
          subst this
          rw [List.take_zero]
          rw [if_pos (show (([] : Str).isEmpty) = true from rfl)]
        | inr hj1 =>
          simp only [List.length_append] at hjl
          rw [if_neg (by
            simp only [List.isEmpty_iff]
            intro hemp
            have := congrArg List.length hemp
            simp only [List.length_take, List.length_append, List.length_nil] at this
            omega)]
          rcases Nat.lt_trichotomy j (encVal v).length with hjv | hjv | hjv
          · rw [List.take_append_of_le_length (by omega)]
            rw [ihP v j hwv hjv (by omega)]
          · subst hjv
            rw [List.take_left]
            have hvs : 0 < (encList vs).length := by omega
            have hrt := (parse_enc_fuel (f' + 1)).1 v [] hwv (by
              simp only [List.length_append, List.length_nil]
              omega)
            rw [List.append_nil] at hrt
            rw [hrt]
            dsimp only
            rw [List.drop_length]
            obtain ⟨m, hm⟩ : ∃ m, vs.length = m + 1 := by
              cases vs with
              | nil => rw [encList_nil] at hvs; simp at hvs
              | cons a b => exact ⟨b.length, rfl⟩
            rw [hm]
            obtain ⟨f2, rfl⟩ : ∃ f2, f' = f2 + 1 := ⟨f' - 1, by omega⟩
            rw [parseElemsF_succ]
            rw [if_pos (show (([] : Str).isEmpty) = true from rfl)]
          · obtain ⟨j2, rfl⟩ : ∃ j2, j = (encVal v).length + j2 := ⟨j - (encVal v).length, by
              omega⟩
            rw [List.take_append]
            have hrt := (parse_enc_fuel (f' + 1)).1 v ((encList vs).take j2) hwv (by
              simp only [List.length_append, List.length_take]
              omega)
            rw [hrt]
            dsimp only
            rw [List.drop_left]
            rw [ihL vs j2 hwvs (by omega) (by omega)]

/-- Prefix property for `parse_resp`: a strict prefix of the encoding of a
well-formed value parses as `Incomplete`. -/
theorem parse_resp_take_incomplete (v : RespValue) (i : Nat) (hwf : wfB v = true)
    (hi : i < (encVal v).length) :
    parse_resp ((encVal v).take i) = .error .incomplete := by
  unfold parse_resp
  exact (parse_prefix_fuel (((encVal v).take i).length + 1)).1 v i hwf hi (by
    simp only [List.length_take]
    omega)



/-! ## Lemmas about the storage engine -/

theorem sizeSum_insert_some {m : List (Str × Str)} {k old : Str} (v : Str)
    (h : alistGet m k = some old) :
    sizeSum (alistInsert m k v) + (k.length + old.length) =
      sizeSum m + (k.length + v.length) := by
  induction m with
  | nil => simp [alistGet] at h
  | cons p t ih =>
    obtain ⟨k', v'⟩ := p
    by_cases hk : k' = k
    · subst hk
      rw [alistGet, if_pos rfl] at h
      injection h with h
      subst h
      rw [alistInsert, if_pos rfl]
      simp only [sizeSum]
      omega
    · rw [alistGet, if_neg hk] at h
      rw [alistInsert, if_neg hk]
      simp only [sizeSum]
      have := ih h
      omega

theorem sizeSum_insert_none {m : List (Str × Str)} {k : Str} (v : Str)
    (h : alistGet m k = none) :
    sizeSum (alistInsert m k v) = sizeSum m + (k.length + v.length) := by
  induction m with
  | nil => simp [alistInsert, sizeSum]
  | cons p t ih =>
    obtain ⟨k', v'⟩ := p
    by_cases hk : k' = k
    · subst hk
      rw [alistGet, if_pos rfl] at h
      simp at h
    · rw [alistGet, if_neg hk] at h
      rw [alistInsert, if_neg hk]
      simp only [sizeSum]
      rw [ih h]
      omega

theorem size_le_sizeSum {m : List (Str × Str)} {k old : Str}
    (h : alistGet m k = some old) : k.length + old.length ≤ sizeSum m := by
  induction m with
  | nil => simp [alistGet] at h
  | cons p t ih =>
    obtain ⟨k', v'⟩ := p
    by_cases hk : k' = k
    · subst hk
      rw [alistGet, if_pos rfl] at h
      injection h with h
      subst h
      simp only [sizeSum]
      omega
    · rw [alistGet, if_neg hk] at h
      simp only [sizeSum]
      have := ih h
      omega

theorem alistGet_insert_self (m : List (Str × Str)) (k v : Str) :
    alistGet (alistInsert m k v) k = some v := by
  induction m with
  | nil => simp [alistInsert, alistGet]
  | cons p t ih =>
    obtain ⟨k', v'⟩ := p
    by_cases hk : k' = k
    · subst hk
      rw [alistInsert, if_pos rfl, alistGet, if_pos rfl]
    · rw [alistInsert, if_neg hk, alistGet, if_neg hk]
      exact ih

theorem alistGet_insert_ne (m : List (Str × Str)) (k v : Str) {k2 : Str}
    (hne : k2 ≠ k) : alistGet (alistInsert m k v) k2 = alistGet m k2 := by
  induction m with
  | nil =>
    simp only [alistInsert, alistGet]
    rw [if_neg (fun h : k = k2 => hne h.symm)]
  | cons p t ih =>
    obtain ⟨k', v'⟩ := p
    by_cases hk : k' = k
    · rw [show alistInsert ((k', v') :: t) k v = (k, v) :: t by
        simp [alistInsert, hk]]
      simp only [alistGet]
      rw [hk]
      rw [if_neg (fun h : k = k2 => hne h.symm)]
      rw [if_neg (fun h : k = k2 => hne h.symm)]
    · simp only [alistInsert, if_neg hk, alistGet]
      by_cases hk2 : k' = k2
      · rw [if_pos hk2, if_pos hk2]
      · rw [if_neg hk2, if_neg hk2]
        exact ih

theorem mem_keys_insert {m : List (Str × Str)} {k v : Str} {a : Str}
    (h : a ∈ (alistInsert m k v).map Prod.fst) :
    a = k ∨ a ∈ m.map Prod.fst := by
  induction m with
  | nil =>
    simp only [alistInsert, List.map_cons, List.map_nil, List.mem_singleton] at h
    exact Or.inl h
  | cons p t ih =>
    obtain ⟨k', v'⟩ := p
    by_cases hk : k' = k
    · rw [show alistInsert ((k', v') :: t) k v = (k, v) :: t by
        simp [alistInsert, hk]] at h
      simp only [List.map_cons, List.mem_cons] at h ⊢
      tauto
    · rw [show alistInsert ((k', v') :: t) k v = (k', v') :: alistInsert t k v by
        simp [alistInsert, hk]] at h
      simp only [List.map_cons, List.mem_cons] at h ⊢
      rcases h with h | h
      · exact Or.inr (Or.inl h)
      · rcases ih h with h2 | h2
        · exact Or.inl h2
        · exact Or.inr (Or.inr h2)

theorem keysNodup_insert {m : List (Str × Str)} (k v : Str)
    (h : keysNodup m) : keysNodup (alistInsert m k v) := by
  induction m with
  | nil => simp [alistInsert, keysNodup]
  | cons p t ih =>
    obtain ⟨k', v'⟩ := p
    unfold keysNodup at h ⊢
    simp only [List.map_cons, List.nodup_cons] at h
    obtain ⟨hk', ht⟩ := h
    by_cases hk : k' = k
    · subst hk
      rw [alistInsert, if_pos rfl]
      simp only [List.map_cons, List.nodup_cons]
      exact ⟨hk', ht⟩
    · rw [alistInsert, if_neg hk]
      simp only [List.map_cons, List.nodup_cons]
      refine ⟨fun hmem => ?_, ih ht⟩
      rcases mem_keys_insert hmem with h2 | h2
      · exact hk h2
      · exact hk' h2

theorem countKey_eq_zero {m : List (Str × Str)} {k : Str}
    (h : k ∉ m.map Prod.fst) : countKey m k = 0 := by
  induction m with
  | nil => rfl
  | cons p t ih =>
    obtain ⟨k', v'⟩ := p
    simp only [List.map_cons, List.mem_cons, not_or] at h
    have hrec := ih h.2
    unfold countKey at hrec ⊢
    rw [List.filter_cons]
    rw [if_neg (by
      simp only [decide_eq_true_eq]
      exact fun he : k' = k => h.1 he.symm)]
    exact hrec

theorem countKey_insert {m : List (Str × Str)} (k v : Str)
    (h : keysNodup m) : countKey (alistInsert m k v) k = 1 := by
  induction m with
  | nil => simp [alistInsert, countKey, List.filter_cons]
  | cons p t ih =>
    obtain ⟨k', v'⟩ := p
    unfold keysNodup at h
    simp only [List.map_cons, List.nodup_cons] at h
    obtain ⟨hk', ht⟩ := h
    by_cases hk : k' = k
    · rw [show alistInsert ((k', v') :: t) k v = (k, v) :: t by
        simp [alistInsert, hk]]
      rw [hk] at hk'
      have hz : countKey t k = 0 := countKey_eq_zero hk'
      unfold countKey at hz ⊢
      rw [List.filter_cons, if_pos (by simp)]
      simp only [List.length_cons]
      omega
    · rw [show alistInsert ((k', v') :: t) k v = (k', v') :: alistInsert t k v by
        simp [alistInsert, hk]]
      have hrec := ih ht
      unfold countKey at hrec ⊢
      rw [List.filter_cons, if_neg (by
        simp only [decide_eq_true_eq]
        exact hk)]
      exact hrec

/-- The two behaviours of `Storage::insert`, as equations. -/
theorem Storage.insert_reject {s : Storage} {key value : Str}
    (h : s.current_memory + (key.length + value.length) > s.config.max_memory) :
    Storage.insert s key value = (false, s) := by
  unfold Storage.insert
  rw [if_pos h]

theorem Storage.insert_accept {s : Storage} {key value : Str}
    (h : ¬(s.current_memory + (key.length + value.length) > s.config.max_memory)) :
    Storage.insert s key value =
      (true, { s with data := alistInsert s.data key value,
                      current_memory :=
                        (match alistGet s.data key with
                        | some old_value =>
                          s.current_memory - (key.length + old_value.length)
                        | none => s.current_memory) + (key.length + value.length) }) := by
  unfold Storage.insert
  rw [if_neg h]

theorem Storage.insert_accept_none {s : Storage} {key value : Str}
    (h : ¬(s.current_memory + (key.length + value.length) > s.config.max_memory))
    (hget : alistGet s.data key = none) :
    Storage.insert s key value =
      (true, { s with data := alistInsert s.data key value,
                      current_memory :=
                        s.current_memory + (key.length + value.length) }) := by
  rw [Storage.insert_accept h, hget]

theorem Storage.insert_accept_some {s : Storage} {key value old : Str}
    (h : ¬(s.current_memory + (key.length + value.length) > s.config.max_memory))
    (hget : alistGet s.data key = some old) :
    Storage.insert s key value =
      (true, { s with data := alistInsert s.data key value,
                      current_memory :=
                        s.current_memory - (key.length + old.length) +
                          (key.length + value.length) }) := by
  rw [Storage.insert_accept h, hget]

theorem Storage.insert_config (s : Storage) (key value : Str) :
    (Storage.insert s key value).2.config = s.config := by
  by_cases h : s.current_memory + (key.length + value.length) > s.config.max_memory
  · rw [Storage.insert_reject h]
  · rw [Storage.insert_accept h]

theorem Storage.insert_nodup {s : Storage} (key value : Str)
    (h : keysNodup s.data) : keysNodup (Storage.insert s key value).2.data := by
  by_cases hc : s.current_memory + (key.length + value.length) > s.config.max_memory
  · rw [Storage.insert_reject hc]
    exact h
  · rw [Storage.insert_accept hc]
    exact keysNodup_insert key value h

theorem MemInv_new (cfg : StorageConfig) : MemInv (Storage.new cfg) := rfl

theorem MemInv_insert {s : Storage} (key value : Str) (h : MemInv s) :
    MemInv (Storage.insert s key value).2 := by
  by_cases hc : s.current_memory + (key.length + value.length) > s.config.max_memory
  · rw [Storage.insert_reject hc]
    exact h
  · cases hget : alistGet s.data key with
    | none =>
      rw [Storage.insert_accept_none hc hget]
      unfold MemInv at h ⊢
      dsimp only
      rw [sizeSum_insert_none value hget]
      omega
    | some old =>
      rw [Storage.insert_accept_some hc hget]
      unfold MemInv at h ⊢
      dsimp only
      have h1 := sizeSum_insert_some value hget
      have h2 := size_le_sizeSum hget
      omega

theorem MemInv_applyInserts (s : Storage) (ops : List (Str × Str)) (h : MemInv s) :
    MemInv (applyInserts s ops) := by
  induction ops generalizing s with
  | nil => exact h
  | cons p rest ih =>
    unfold applyInserts
    rw [List.foldl_cons]
    exact ih _ (MemInv_insert p.1 p.2 h)

theorem insertAll_cons (s : Storage) (k v : Str) (rest : List (Str × Str)) :
    insertAll s ((k, v) :: rest) =
      ((Storage.insert s k v).1 :: (insertAll (Storage.insert s k v).2 rest).1,
        (insertAll (Storage.insert s k v).2 rest).2) := rfl

theorem insertAll_fresh :
    ∀ (es : List (Str × Str)) (s : Storage),
      (es.map Prod.fst).Nodup → (∀ p ∈ es, alistGet s.data p.1 = none) →
      s.current_memory + sizeSum es ≤ s.config.max_memory →
      (insertAll s es).1 = List.replicate es.length true ∧
      (insertAll s es).2.current_memory = s.current_memory + sizeSum es ∧
      (insertAll s es).2.config = s.config := by
  intro es
  induction es with
  | nil =>
    intro s _ _ _
    exact ⟨rfl, by simp [insertAll, sizeSum], rfl⟩
  | cons p rest ih =>
    intro s hnd hfresh hmem
    obtain ⟨k, v⟩ := p
    simp only [List.map_cons, List.nodup_cons] at hnd
    obtain ⟨hk, hndr⟩ := hnd
    have hsz : 0 ≤ sizeSum rest := Nat.zero_le _
    have hacc : ¬(s.current_memory + (k.length + v.length) > s.config.max_memory) := by
      simp only [sizeSum] at hmem
      omega
    have hget := hfresh (k, v) (by simp)
    have hins : Storage.insert s k v =
        (true, { s with data := alistInsert s.data k v,
                        current_memory := s.current_memory + (k.length + v.length) }) := by
      rw [Storage.insert_accept hacc, hget]
    rw [insertAll_cons s k v rest, hins]
    dsimp only
    have hfresh1 : ∀ q ∈ rest,
        alistGet (alistInsert s.data k v) q.1 = none := by
      intro q hq
      have hne : q.1 ≠ k := by
        intro he
        exact hk (he ▸ (List.mem_map.mpr ⟨q, hq, rfl⟩))
      rw [alistGet_insert_ne s.data k v hne]
      exact hfresh q (by simp [hq])
    have hmem1 : s.current_memory + (k.length + v.length) + sizeSum rest ≤
        s.config.max_memory := by
      simp only [sizeSum] at hmem
      omega
    obtain ⟨hb, hm, hc⟩ :=
      ih { s with
            data := alistInsert s.data k v
            current_memory := s.current_memory + (k.length + v.length) }
        hndr hfresh1 hmem1
    refine ⟨?_, ?_, ?_⟩
    · simp only [hb, List.length_cons, List.replicate_succ]
    · rw [hm]
      simp only [sizeSum]
      omega
    · rw [hc]

theorem insertAll_append (s : Storage) (xs ys : List (Str × Str)) :
    insertAll s (xs ++ ys) =
      ((insertAll s xs).1 ++ (insertAll (insertAll s xs).2 ys).1,
        (insertAll (insertAll s xs).2 ys).2) := by
  induction xs generalizing s with
  | nil => simp [insertAll]
  | cons p rest ih =>
    obtain ⟨k, v⟩ := p
    rw [List.cons_append, insertAll_cons, insertAll_cons, ih]
    simp

/-! ## Lemmas about the command layer -/

theorem splitCRLF_crlf (rest : Str) :
    splitCRLF ('\r' :: '\n' :: rest) = [] :: splitCRLF rest := rfl

theorem splitCRLF_cons_of_ne (c1 c2 : Char) (t : Str) (h : ¬(c1 = '\r' ∧ c2 = '\n')) :
    splitCRLF (c1 :: c2 :: t) =
      (match splitCRLF (c2 :: t) with
      | [] => [[c1]]
      | l :: ls => (c1 :: l) :: ls) := by
  conv_lhs => rw [splitCRLF.eq_def]
  split
  · rename_i heq
    exact absurd heq (by simp)
  · rename_i rest heq
    exact absurd (by injection heq with h1 h2; injection h2 with h2 h3; exact ⟨h1, h2⟩) h
  · rename_i c rest hne heq
    injection heq with h1 h2
    subst h1
    subst h2
    rfl

theorem findCRLF_cons_of_ne_cr {c : Char} (hc : c ≠ '\r') {t : Str}
    (h : findCRLF t = none) : findCRLF (c :: t) = none := by
  cases t with
  | nil => rfl
  | cons c2 t2 =>
    rw [findCRLF_cons_cons, if_neg (by tauto), h]
    rfl

theorem splitCRLF_append {a : Str} (r : Str) (h : findCRLF a = none) :
    splitCRLF (a ++ '\r' :: '\n' :: r) = a :: splitCRLF r := by
  induction a with
  | nil => exact splitCRLF_crlf r
  | cons c a2 ih =>
    cases a2 with
    | nil =>
      rw [show ([c] : Str) ++ '\r' :: '\n' :: r = c :: '\r' :: '\n' :: r from rfl]
      rw [splitCRLF_cons_of_ne c '\r' _ (by simp), splitCRLF_crlf]
    | cons c2 t2 =>
      rw [findCRLF_cons_cons] at h
      by_cases hw : c = '\r' ∧ c2 = '\n'
      · rw [if_pos hw] at h
        simp at h
      · rw [if_neg hw] at h
        have h2 : findCRLF (c2 :: t2) = none := by
          cases hfind : findCRLF (c2 :: t2) with
          | none => rfl
          | some e => rw [hfind] at h; simp at h
        rw [show (c :: c2 :: t2) ++ '\r' :: '\n' :: r =
            c :: c2 :: (t2 ++ '\r' :: '\n' :: r) from rfl]
        rw [splitCRLF_cons_of_ne c c2 _ hw]
        have ih2 := ih h2
        rw [show (c2 :: t2) ++ '\r' :: '\n' :: r =
            c2 :: (t2 ++ '\r' :: '\n' :: r) from rfl] at ih2
        rw [ih2]

/-- The lines a correctly paired frame body splits into. -/
def argLines : List (Str × Str) → List Str
  | [] => []
  | p :: rest => ('$' :: p.1) :: p.2 :: argLines rest

theorem splitCRLF_body (pairs : List (Str × Str))
    (h : ∀ p ∈ pairs, findCRLF p.1 = none ∧ findCRLF p.2 = none) :
    splitCRLF (catList (pairs.map (fun p => '$' :: (p.1 ++ CRLF ++ p.2 ++ CRLF)))) =
      argLines pairs ++ [[]] := by
  induction pairs with
  | nil => rfl
  | cons p rest ih =>
    obtain ⟨j, a⟩ := p
    obtain ⟨hj, ha⟩ := h (j, a) (by simp)
    simp only [List.map_cons, catList]
    rw [show ('$' :: (j ++ CRLF ++ a ++ CRLF)) ++
        catList (rest.map (fun p => '$' :: (p.1 ++ CRLF ++ p.2 ++ CRLF))) =
        ('$' :: j) ++ ('\r' :: '\n' ::
          (a ++ ('\r' :: '\n' ::
            catList (rest.map (fun p => '$' :: (p.1 ++ CRLF ++ p.2 ++ CRLF)))))) by
      simp [CRLF]]
    rw [splitCRLF_append _ (findCRLF_cons_of_ne_cr (by decide) hj)]
    rw [splitCRLF_append _ ha]
    rw [ih (fun q hq => h q (by simp [hq]))]
    rfl

theorem extractArgs_argLines (pairs : List (Str × Str)) (acc : List Str) :
    extractArgs (argLines pairs ++ [[]]) acc = some (acc ++ pairs.map Prod.snd) := by
  induction pairs generalizing acc with
  | nil =>
    simp [argLines, extractArgs, startsWithChar]
  | cons p rest ih =>
    obtain ⟨j, a⟩ := p
    simp only [argLines, List.cons_append]
    rw [extractArgs]
    rw [if_pos (show startsWithChar '$' ('$' :: j) = true from rfl)]
    rw [ih (acc ++ [a])]
    simp

theorem commandFromStr_mkFrameJ (count : Str) (pairs : List (Str × Str))
    (hcount : findCRLF count = none)
    (hpairs : ∀ p ∈ pairs, findCRLF p.1 = none ∧ findCRLF p.2 = none) :
    commandFromStr (mkFrameJ count pairs) =
      some (interpretArgs (pairs.map Prod.snd)) := by
  unfold commandFromStr mkFrameJ
  rw [show ('*' :: (count ++ CRLF ++
      catList (pairs.map (fun p => '$' :: (p.1 ++ CRLF ++ p.2 ++ CRLF))))) =
      ('*' :: count) ++ ('\r' :: '\n' ::
        catList (pairs.map (fun p => '$' :: (p.1 ++ CRLF ++ p.2 ++ CRLF)))) by
    simp [CRLF]]
  rw [splitCRLF_append _ (findCRLF_cons_of_ne_cr (by decide) hcount)]
  rw [splitCRLF_body pairs hpairs]
  dsimp only
  rw [if_pos (show startsWithChar '*' ('*' :: count) = true from rfl)]
  rw [extractArgs_argLines pairs []]
  rfl

theorem map_snd_mkPairs (args : List Str) :
    ((args.map (fun a => (natToStr a.length, a))).map Prod.snd) = args := by
  induction args with
  | nil => rfl
  | cons a t ih => simp only [List.map_cons, ih]


theorem commandFromStr_mkFrame (args : List Str)
    (hargs : ∀ a ∈ args, findCRLF a = none) :
    commandFromStr (mkFrame args) = some (interpretArgs args) := by
  unfold mkFrame
  rw [commandFromStr_mkFrameJ _ _ (findCRLF_natToStr args.length) (by
    intro p hp
    simp only [List.mem_map] at hp
    obtain ⟨a, ha, rfl⟩ := hp
    exact ⟨findCRLF_natToStr a.length, hargs a ha⟩)]
  rw [map_snd_mkPairs]

/-! ## Lemmas about substring containment -/

theorem isPfx_append_self (p y : Str) : isPfx p (p ++ y) = true := by
  induction p with
  | nil => rfl
  | cons c t ih => simpa [isPfx] using ih

theorem containsStr_of_isPfx {p s : Str} (h : isPfx p s = true) :
    containsStr p s = true := by
  cases s with
  | nil => exact h
  | cons c t =>
    unfold containsStr
    rw [h]
    rfl

theorem containsStr_cons {p t : Str} (c : Char) (h : containsStr p t = true) :
    containsStr p (c :: t) = true := by
  unfold containsStr
  rw [h]
  simp

theorem containsStr_append_left {p s : Str} (x : Str) (h : containsStr p s = true) :
    containsStr p (x ++ s) = true := by
  induction x with
  | nil => exact h
  | cons c t ih => exact containsStr_cons c ih

theorem containsStr_mid (x p y : Str) : containsStr p (x ++ (p ++ y)) = true :=
  containsStr_append_left x (containsStr_of_isPfx (isPfx_append_self p y))


/-! ## Remaining helper lemmas for the claims -/

/-- Modelled from the spec: §4.3's removal-then-check ordering for
`Storage::insert` — the replaced record's old contribution is subtracted from
the running total before the ceiling check.  Used only to compare the spec's
stated ordering against the source's `Storage.insert`. -/
def specSubtractFirstAccepts (s : Storage) (key value : Str) : Bool :=
  let entry_size := key.length + value.length
  let base :=
    match alistGet s.data key with
    | some old_value => s.current_memory - (key.length + old_value.length)
    | none => s.current_memory
  decide (base + entry_size ≤ s.config.max_memory)

theorem interpretArgs_set_wrong {args : List Str} (hne : args ≠ [])
    (hc : upperStr (args.headD []) = str "SET") (hl : args.length ≠ 3) :
    interpretArgs args = .error .wrongNumberOfArguments := by
  unfold interpretArgs
  rw [if_neg (by simpa [List.isEmpty_iff] using hne)]
  dsimp only
  rw [hc]
  rw [if_pos rfl, if_pos hl]

theorem interpretArgs_get_wrong {args : List Str} (hne : args ≠ [])
    (hc : upperStr (args.headD []) = str "GET") (hl : args.length ≠ 2) :
    interpretArgs args = .error .wrongNumberOfArguments := by
  unfold interpretArgs
  rw [if_neg (by simpa [List.isEmpty_iff] using hne)]
  dsimp only
  rw [hc]
  rw [if_neg (by decide), if_pos rfl, if_pos hl]

theorem interpretArgs_unknown {args : List Str} (hne : args ≠ [])
    (h1 : upperStr (args.headD []) ≠ str "SET")
    (h2 : upperStr (args.headD []) ≠ str "GET")
    (h3 : upperStr (args.headD []) ≠ str "INFO")
    (h4 : upperStr (args.headD []) ≠ str "COMMAND")
    (h5 : upperStr (args.headD []) ≠ str "MEMORY")
    (h6 : upperStr (args.headD []) ≠ str "SAVE") :
    interpretArgs args = .error (.unknownCommand (upperStr (args.headD []))) := by
  unfold interpretArgs
  rw [if_neg (by simpa [List.isEmpty_iff] using hne)]
  dsimp only
  rw [if_neg h1, if_neg h2, if_neg h3, if_neg h4, if_neg h5, if_neg h6]

theorem handleCommand_error {cmd : Str} {e : CommandError} (so : Option Str)
    (db : Storage) (h : commandFromStr cmd = some (.error e)) :
    handleCommand so cmd db = some (.error (cmdErrToString e), db) := by
  unfold handleCommand
  rw [h]

theorem Storage.insert_get_ne (s : Storage) (key value : Str) {k2 : Str}
    (hne : k2 ≠ key) :
    alistGet (Storage.insert s key value).2.data k2 = alistGet s.data k2 := by
  by_cases hc : s.current_memory + (key.length + value.length) > s.config.max_memory
  · rw [Storage.insert_reject hc]
  · rw [Storage.insert_accept hc]
    exact alistGet_insert_ne s.data key value hne

/-- Negative declared array counts: the `-1` arm and the vacuous element loop
both produce an empty array consuming the header only. -/
theorem parse_resp_negative_count (c : Int) (hc : c < 0) (hc2 : -(2 ^ 63) ≤ c)
    (rest : Str) :
    parse_resp ('*' :: (intToStr c ++ CRLF ++ rest)) =
      .ok (.array [], (intToStr c).length + 3) := by
  unfold parse_resp
  rw [show intToStr c ++ CRLF ++ rest = intToStr c ++ ('\r' :: '\n' :: rest) by
    simp [CRLF]]
  rw [show ('*' :: (intToStr c ++ ('\r' :: '\n' :: rest))).length + 1 =
      (intToStr c ++ ('\r' :: '\n' :: rest)).length + 1 + 1 by simp]
  rw [parseRespF_star]
  rw [findCRLF_append_crlf rest (findCRLF_intToStr c)]
  dsimp only
  rw [List.take_left]
  rw [parseI64_intToStr hc2 (by omega)]
  dsimp only
  by_cases hm1 : c = -1
  · rw [if_pos hm1]
  · rw [if_neg hm1]
    rw [Int.toNat_of_nonpos (by omega)]
    obtain ⟨m, hm⟩ : ∃ m, (intToStr c ++ ('\r' :: '\n' :: rest)).length + 1 = m + 1 :=
      ⟨(intToStr c ++ ('\r' :: '\n' :: rest)).length, rfl⟩
    rw [hm, parseElemsF_zero]

/-! ## The claims -/

/-- C1, as stated, is refuted: the constructible value
`SimpleString "a\r\nb"` encodes to `"+a\r\nb\r\n"`, whose decoding stops at
the first CRLF and returns `SimpleString "a"` with 4 characters consumed
rather than the original value with the full length. -/
theorem C1_counterexample :
    parse_resp (encVal (.simpleString (str "a\r\nb"))) =
      .ok (.simpleString (str "a"), 4) ∧
    parse_resp (encVal (.simpleString (str "a\r\nb"))) ≠
      .ok (.simpleString (str "a\r\nb"),
        (encVal (.simpleString (str "a\r\nb"))).length) := by
  decide

/-- C1 (amended): for every RespValue whose SimpleString/Error payloads
contain no CRLF and whose integer payloads and bulk-string/array lengths fit
in i64, decoding the bytes produced by encoding the value yields exactly the
value together with a consumed count equal to the full encoding length:
`parse_resp (v.to_string()) = Ok (v, v.to_string().len())`. -/
theorem C1_roundtrip (v : RespValue) (hwf : wfB v = true) :
    parse_resp (encVal v) = .ok (v, (encVal v).length) :=
  parse_resp_enc v hwf

theorem C1_witness :
    wfB (.array [.bulkString (some (str "hello")), .integer (-42)]) = true ∧
    parse_resp (encVal (.array [.bulkString (some (str "hello")), .integer (-42)])) =
      .ok (.array [.bulkString (some (str "hello")), .integer (-42)],
        (encVal (.array [.bulkString (some (str "hello")), .integer (-42)])).length) :=
  ⟨by decide, C1_roundtrip _ (by decide)⟩

/-- C2, as stated, is refuted: the spec's removal-then-check ordering would
accept replacing the 4-byte value under "k" by an 8-byte one under a 10-byte
ceiling (5 - 5 + 9 ≤ 10), but `Storage::insert` checks the un-subtracted
running total first (5 + 9 > 10) and rejects. -/
theorem C2_counterexample :
    (Storage.insert
        (Storage.insert (Storage.new ⟨10, false⟩) (str "k") (str "aaaa")).2
        (str "k") (str "aaaaaaaa")).1 = false ∧
    specSubtractFirstAccepts
        (Storage.insert (Storage.new ⟨10, false⟩) (str "k") (str "aaaa")).2
        (str "k") (str "aaaaaaaa") = true := by
  decide

/-- C2 (amended): when a record already exists under `key`, `Storage::insert`
checks `current_memory + entry_size` against the ceiling BEFORE subtracting
the old record's contribution (it rejects exactly when the un-subtracted
total plus the entry size exceeds the ceiling); if that check fails the
insert is rejected with the prior record and the prior running total left
entirely untouched. -/
theorem C2_insert_check_order (s : Storage) (key value old : Str)
    (hget : alistGet s.data key = some old) :
    ((Storage.insert s key value).1 = false ↔
      s.current_memory + (key.length + value.length) > s.config.max_memory) ∧
    ((Storage.insert s key value).1 = false →
      (Storage.insert s key value).2 = s) := by
  by_cases hc : s.current_memory + (key.length + value.length) > s.config.max_memory
  · rw [Storage.insert_reject hc]
    exact ⟨⟨fun _ => hc, fun _ => rfl⟩, fun _ => rfl⟩
  · rw [Storage.insert_accept hc]
    exact ⟨⟨fun h => by simp at h, fun h => absurd h hc⟩, fun h => by simp at h⟩

theorem C2_witness :
    (Storage.insert
        ⟨[(str "k", str "aaaa")], ⟨10, false⟩, 5⟩ (str "k") (str "aaaaaaaa")).1 =
      false ∧
    (Storage.insert
        ⟨[(str "k", str "aaaa")], ⟨10, false⟩, 5⟩ (str "k") (str "aaaaaaaa")).2 =
      ⟨[(str "k", str "aaaa")], ⟨10, false⟩, 5⟩ := by
  have h := C2_insert_check_order ⟨[(str "k", str "aaaa")], ⟨10, false⟩, 5⟩
    (str "k") (str "aaaaaaaa") (str "aaaa") (by decide)
  have hf : (Storage.insert ⟨[(str "k", str "aaaa")], ⟨10, false⟩, 5⟩
      (str "k") (str "aaaaaaaa")).1 = false := h.1.mpr (by decide)
  exact ⟨hf, h.2 hf⟩

/-- C3: the memory-accounting invariant (`current_memory` equals the sum of
`len(key)+len(value)` over stored records) holds after any sequence of
`Storage::insert` calls starting from `Storage::new`, and
`Storage::load_from_disk` re-establishes it by recomputing the total from
scratch over the loaded records, never trusting the stored total. -/
theorem C3_memory_invariant :
    (∀ (cfg : StorageConfig) (ops : List (Str × Str)),
      MemInv (applyInserts (Storage.new cfg) ops)) ∧
    (∀ (s : Storage) (m : List (Str × Str)),
      s.config.persistence_enabled = true →
      (Storage.load_from_disk s (some m)).current_memory = sizeSum m ∧
      MemInv (Storage.load_from_disk s (some m))) := by
  constructor
  · intro cfg ops
    exact MemInv_applyInserts _ ops (MemInv_new cfg)
  · intro s m hp
    unfold Storage.load_from_disk
    rw [if_pos hp]
    exact ⟨rfl, rfl⟩

theorem C3_witness :
    MemInv (applyInserts (Storage.new ⟨100, false⟩)
      [(str "a", str "bb"), (str "a", str "cccc"), (str "zz", str "y")]) ∧
    ((Storage.load_from_disk ⟨[(str "k", str "v")], ⟨50, true⟩, 999⟩
        (some [(str "aa", str "bbb")])).current_memory =
      sizeSum [(str "aa", str "bbb")] ∧
    MemInv (Storage.load_from_disk ⟨[(str "k", str "v")], ⟨50, true⟩, 999⟩
        (some [(str "aa", str "bbb")]))) :=
  ⟨C3_memory_invariant.1 ⟨100, false⟩ _,
    C3_memory_invariant.2 ⟨[(str "k", str "v")], ⟨50, true⟩, 999⟩ _ (by decide)⟩

/-- C4: `Storage::insert` returns false exactly on capacity rejection with no
partial mutation: a fresh store reports 0 memory; a single record whose size
alone exceeds the ceiling is rejected leaving the store unchanged; and a
sequence of fresh-key inserts whose cumulative size first exceeds the ceiling
at the k-th insert succeeds for inserts 1..k-1 and fails exactly at k. -/
theorem C4_capacity_rejection :
    (∀ cfg : StorageConfig, Storage.memory_usage (Storage.new cfg) = 0) ∧
    (∀ (s : Storage) (key value : Str),
      key.length + value.length > s.config.max_memory →
      Storage.insert s key value = (false, s)) ∧
    (∀ (cfg : StorageConfig) (es : List (Str × Str)) (e : Str × Str),
      ((es ++ [e]).map Prod.fst).Nodup →
      sizeSum es ≤ cfg.max_memory →
      cfg.max_memory < sizeSum es + (e.1.length + e.2.length) →
      (insertAll (Storage.new cfg) (es ++ [e])).1 =
        List.replicate es.length true ++ [false]) := by
  refine ⟨fun cfg => rfl, fun s key value h => Storage.insert_reject (by omega), ?_⟩
  intro cfg es e hnd hle hgt
  obtain ⟨k, v⟩ := e
  dsimp only at hgt
  rw [List.map_append] at hnd
  have hnd_es : (es.map Prod.fst).Nodup := hnd.of_append_left
  obtain ⟨hb, hm, hc⟩ := insertAll_fresh es (Storage.new cfg) hnd_es
    (fun p _ => rfl)
    (by
      show (0 : Nat) + sizeSum es ≤ cfg.max_memory
      omega)
  rw [insertAll_append]
  dsimp only
  rw [hb, insertAll_cons]
  rw [Storage.insert_reject (by
    rw [hm, hc]
    show (0 : Nat) + sizeSum es + (k.length + v.length) > cfg.max_memory
    omega)]
  rfl

theorem C4_witness :
    Storage.memory_usage (Storage.new ⟨5, false⟩) = 0 ∧
    Storage.insert (Storage.new ⟨5, false⟩) (str "abc") (str "abc") =
      (false, Storage.new ⟨5, false⟩) ∧
    (insertAll (Storage.new ⟨5, false⟩)
        ([(str "a", str "b"), (str "c", str "d")] ++ [(str "e", str "fg")])).1 =
      List.replicate 2 true ++ [false] := by
  refine ⟨C4_capacity_rejection.1 _, C4_capacity_rejection.2.1 _ _ _ (by decide), ?_⟩
  exact C4_capacity_rejection.2.2 ⟨5, false⟩
    [(str "a", str "b"), (str "c", str "d")] (str "e", str "fg")
    (by decide) (by decide) (by decide)

/-- C5: splitting the encoding of a well-formed value at any offset, the
prefix decodes to either a complete frame or `Incomplete` (never a format
error), and decoding the buffered prefix with the remainder appended yields
the same result as a single-shot decode of the whole encoding. -/
theorem C5_incremental (v : RespValue) (i : Nat) (hwf : wfB v = true)
    (hi : i ≤ (encVal v).length) :
    ((∃ w c, parse_resp ((encVal v).take i) = .ok (w, c)) ∨
      parse_resp ((encVal v).take i) = .error .incomplete) ∧
    parse_resp ((encVal v).take i ++ (encVal v).drop i) = parse_resp (encVal v) := by
  constructor
  · rcases Nat.lt_or_ge i (encVal v).length with h | h
    · exact Or.inr (parse_resp_take_incomplete v i hwf h)
    · have hieq : i = (encVal v).length := le_antisymm hi h
      subst hieq
      rw [List.take_length]
      exact Or.inl ⟨v, (encVal v).length, parse_resp_enc v hwf⟩
  · rw [List.take_append_drop]

theorem C5_witness :
    wfB (.bulkString (some (str "hi"))) = true ∧
    3 ≤ (encVal (.bulkString (some (str "hi")))).length ∧
    (((∃ w c, parse_resp ((encVal (.bulkString (some (str "hi")))).take 3) =
        .ok (w, c)) ∨
      parse_resp ((encVal (.bulkString (some (str "hi")))).take 3) =
        .error .incomplete) ∧
    parse_resp ((encVal (.bulkString (some (str "hi")))).take 3 ++
        (encVal (.bulkString (some (str "hi")))).drop 3) =
      parse_resp (encVal (.bulkString (some (str "hi"))))) :=
  ⟨by decide, by decide, C5_incremental _ 3 (by decide) (by decide)⟩


/-- C6, as stated, is refuted: with a 10-byte ceiling, `SET k "aaaa"` then
`SET k "bbbbbbbb"` leaves the store holding the FIRST value — the second SET
is rejected by the un-subtracted capacity check (5 + 9 > 10) — so the record
for `k` does not hold v2. -/
theorem C6_counterexample :
    alistGet ((Storage.insert
        (Storage.insert (Storage.new ⟨10, false⟩) (str "k") (str "aaaa")).2
        (str "k") (str "bbbbbbbb")).2).data (str "k") = some (str "aaaa") ∧
    str "aaaa" ≠ str "bbbbbbbb" := by
  decide

/-- C6 (amended): provided the second SET passes the capacity check (the
running total after the first SET plus `len(key)+len(v2)` stays within the
ceiling), `SET key v1` then `SET key v2` leaves exactly one record for `key`,
holding `v2`, with all unrelated records unchanged and the running total
again equal to the exact sum of the stored records' sizes. -/
theorem C6_overwrite (s : Storage) (k v1 v2 : Str)
    (hnd : keysNodup s.data) (hinv : MemInv s)
    (h2 : (Storage.insert s k v1).2.current_memory + (k.length + v2.length) ≤
      s.config.max_memory) :
    alistGet ((Storage.insert (Storage.insert s k v1).2 k v2).2).data k = some v2 ∧
    countKey ((Storage.insert (Storage.insert s k v1).2 k v2).2).data k = 1 ∧
    (∀ k2, k2 ≠ k →
      alistGet ((Storage.insert (Storage.insert s k v1).2 k v2).2).data k2 =
        alistGet s.data k2) ∧
    MemInv (Storage.insert (Storage.insert s k v1).2 k v2).2 := by
  have hc1 : (Storage.insert s k v1).2.config = s.config := Storage.insert_config s k v1
  have hnd1 : keysNodup (Storage.insert s k v1).2.data := Storage.insert_nodup k v1 hnd
  have hinv1 : MemInv (Storage.insert s k v1).2 := MemInv_insert k v1 hinv
  have hacc : ¬((Storage.insert s k v1).2.current_memory + (k.length + v2.length) >
      (Storage.insert s k v1).2.config.max_memory) := by
    rw [hc1]
    omega
  refine ⟨?_, ?_, ?_, MemInv_insert k v2 hinv1⟩
  · rw [Storage.insert_accept hacc]
    exact alistGet_insert_self _ k v2
  · rw [Storage.insert_accept hacc]
    exact countKey_insert k v2 hnd1
  · intro k2 hk2
    rw [Storage.insert_get_ne _ k v2 hk2, Storage.insert_get_ne s k v1 hk2]

theorem C6_witness :
    alistGet ((Storage.insert
        (Storage.insert (Storage.new ⟨100, false⟩) (str "k") (str "a")).2
        (str "k") (str "bb")).2).data (str "k") = some (str "bb") ∧
    countKey ((Storage.insert
        (Storage.insert (Storage.new ⟨100, false⟩) (str "k") (str "a")).2
        (str "k") (str "bb")).2).data (str "k") = 1 ∧
    MemInv (Storage.insert
        (Storage.insert (Storage.new ⟨100, false⟩) (str "k") (str "a")).2
        (str "k") (str "bb")).2 := by
  have h := C6_overwrite (Storage.new ⟨100, false⟩) (str "k") (str "a") (str "bb")
    List.nodup_nil rfl (by decide)
  exact ⟨h.1, h.2.1, h.2.2.2⟩

/-- C7, as stated, is refuted on the "as it appeared" part: the unrecognized
token "foo" is reported uppercased, as "unknown command: FOO", not as it
appeared in the request. -/
theorem C7_counterexample :
    handleCommand none (mkFrame [str "foo"]) (Storage.new ⟨100, false⟩) =
      some (.error (str "unknown command: FOO"), Storage.new ⟨100, false⟩) ∧
    str "unknown command: FOO" ≠ str "unknown command: foo" := by
  decide

/-- C7 (amended): dispatching a request whose operation name is SET or GET
with the wrong number of arguments yields the "wrong number of arguments for
command" Error reply, and dispatching a request whose first argument is not a
recognized operation name yields an "unknown command" Error naming the
UPPERCASED form of the offending token. -/
theorem C7_errors (args : List Str) (so : Option Str) (db : Storage)
    (hargs : ∀ a ∈ args, findCRLF a = none) (hne : args ≠ []) :
    (upperStr (args.headD []) = str "SET" → args.length ≠ 3 →
      handleCommand so (mkFrame args) db =
        some (.error (str "wrong number of arguments for command"), db)) ∧
    (upperStr (args.headD []) = str "GET" → args.length ≠ 2 →
      handleCommand so (mkFrame args) db =
        some (.error (str "wrong number of arguments for command"), db)) ∧
    (upperStr (args.headD []) ≠ str "SET" → upperStr (args.headD []) ≠ str "GET" →
      upperStr (args.headD []) ≠ str "INFO" → upperStr (args.headD []) ≠ str "COMMAND" →
      upperStr (args.headD []) ≠ str "MEMORY" → upperStr (args.headD []) ≠ str "SAVE" →
      handleCommand so (mkFrame args) db =
        some (.error (str "unknown command: " ++ upperStr (args.headD [])), db)) := by
  have hcf := commandFromStr_mkFrame args hargs
  refine ⟨fun hc hl => ?_, fun hc hl => ?_, fun h1 h2 h3 h4 h5 h6 => ?_⟩
  · exact handleCommand_error so db (by
      rw [hcf, interpretArgs_set_wrong hne hc hl])
  · exact handleCommand_error so db (by
      rw [hcf, interpretArgs_get_wrong hne hc hl])
  · exact handleCommand_error so db (by
      rw [hcf, interpretArgs_unknown hne h1 h2 h3 h4 h5 h6])

theorem C7_witness :
    handleCommand none (mkFrame [str "SET", str "k"]) (Storage.new ⟨100, false⟩) =
      some (.error (str "wrong number of arguments for command"),
        Storage.new ⟨100, false⟩) ∧
    handleCommand none (mkFrame [str "get", str "k", str "x"])
        (Storage.new ⟨100, false⟩) =
      some (.error (str "wrong number of arguments for command"),
        Storage.new ⟨100, false⟩) ∧
    handleCommand none (mkFrame [str "ping"]) (Storage.new ⟨100, false⟩) =
      some (.error (str "unknown command: " ++ upperStr ((
        [str "ping"] : List Str).headD [])), Storage.new ⟨100, false⟩) :=
  ⟨(C7_errors [str "SET", str "k"] none _ (by decide) (by decide)).1
      (by decide) (by decide),
    (C7_errors [str "get", str "k", str "x"] none _ (by decide) (by decide)).2.1
      (by decide) (by decide),
    (C7_errors [str "ping"] none _ (by decide) (by decide)).2.2
      (by decide) (by decide) (by decide) (by decide) (by decide) (by decide)⟩

/-- C8: the claim is right of the command-module dispatcher but the live
server's inline INFO arm in src/main.rs contradicts it: the reply to
`*1\r\n$4\r\nINFO\r\n` is a bulk string holding only the server-version
line — it contains no `used_memory:` and no persistence flag — while
`handle_command` in src/commands/mod.rs builds an INFO text containing the
version line, `used_memory:` followed by the current byte count, and the
persistence-enabled flag. -/
theorem C8_info_reply :
    (mainHandleCommand (str "*1\r\n$4\r\nINFO\r\n") [] =
        some (str "$31\r\n# Server\r\nredis_version:1.0.0\r\n\r\n", []) ∧
      containsStr (str "used_memory:")
        (str "$31\r\n# Server\r\nredis_version:1.0.0\r\n\r\n") = false) ∧
    (∀ db : Storage,
      containsStr (str "redis_version:1.0.0") (infoString db) = true ∧
      containsStr (str "used_memory:" ++ natToStr (Storage.memory_usage db))
        (infoString db) = true ∧
      containsStr (str "persistence_enabled:" ++
        boolStr (Storage.is_persistence_enabled db)) (infoString db) = true) := by
  refine ⟨by decide, fun db => ⟨?_, ?_, ?_⟩⟩
  · have h : infoString db = str "# Server\r\n" ++ (str "redis_version:1.0.0" ++
        (str "\r\n# Memory\r\nused_memory:" ++
          (natToStr (Storage.memory_usage db) ++
            (str "\r\npersistence_enabled:" ++
              (boolStr (Storage.is_persistence_enabled db) ++ str "\r\n"))))) := by
      unfold infoString
      rw [show (str "# Server\r\nredis_version:1.0.0\r\n# Memory\r\nused_memory:" :
          Str) = str "# Server\r\n" ++ (str "redis_version:1.0.0" ++
            str "\r\n# Memory\r\nused_memory:") by decide]
      simp only [List.append_assoc]
    rw [h]
    exact containsStr_mid _ _ _
  · have h : infoString db = str "# Server\r\nredis_version:1.0.0\r\n# Memory\r\n" ++
        ((str "used_memory:" ++ natToStr (Storage.memory_usage db)) ++
          (str "\r\npersistence_enabled:" ++
            (boolStr (Storage.is_persistence_enabled db) ++ str "\r\n"))) := by
      unfold infoString
      rw [show (str "# Server\r\nredis_version:1.0.0\r\n# Memory\r\nused_memory:" :
          Str) = str "# Server\r\nredis_version:1.0.0\r\n# Memory\r\n" ++
            str "used_memory:" by decide]
      simp only [List.append_assoc]
    rw [h]
    exact containsStr_mid _ _ _
  · have h : infoString db =
        (str "# Server\r\nredis_version:1.0.0\r\n# Memory\r\nused_memory:" ++
          (natToStr (Storage.memory_usage db) ++ str "\r\n")) ++
        ((str "persistence_enabled:" ++
          boolStr (Storage.is_persistence_enabled db)) ++ str "\r\n") := by
      unfold infoString
      rw [show (str "\r\npersistence_enabled:" : Str) =
          str "\r\n" ++ str "persistence_enabled:" by decide]
      simp only [List.append_assoc]
    rw [h]
    exact containsStr_mid _ _ _

/-- C9: `Command::from_str` never inspects the declared array count or the
bulk-string length prefixes: a frame with an arbitrary count line and
arbitrary declared lengths parses and dispatches exactly as the correctly
prefixed frame for the same argument texts. -/
theorem C9_prefix_insensitive (count : Str) (pairs : List (Str × Str))
    (hcount : findCRLF count = none)
    (hpairs : ∀ p ∈ pairs, findCRLF p.1 = none ∧ findCRLF p.2 = none) :
    commandFromStr (mkFrameJ count pairs) =
      some (interpretArgs (pairs.map Prod.snd)) ∧
    commandFromStr (mkFrameJ count pairs) =
      commandFromStr (mkFrame (pairs.map Prod.snd)) ∧
    ∀ (so : Option Str) (db : Storage),
      handleCommand so (mkFrameJ count pairs) db =
        handleCommand so (mkFrame (pairs.map Prod.snd)) db := by
  have h1 := commandFromStr_mkFrameJ count pairs hcount hpairs
  have h2 := commandFromStr_mkFrame (pairs.map Prod.snd) (by
    intro a ha
    simp only [List.mem_map] at ha
    obtain ⟨p, hp, rfl⟩ := ha
    exact (hpairs p hp).2)
  refine ⟨h1, h1.trans h2.symm, fun so db => ?_⟩
  unfold handleCommand
  rw [h1, h2]

theorem C9_witness :
    commandFromStr
        (mkFrameJ (str "2") [(str "3", str "GET"), (str "10", str "nonexistent")]) =
      some (.ok (.get (str "nonexistent"))) :=
  ((C9_prefix_insensitive (str "2")
      [(str "3", str "GET"), (str "10", str "nonexistent")]
      (by decide) (by decide)).1).trans (by decide)

/-- C10: for every array frame whose declared count is negative — not only
−1 — `parse_resp` succeeds with an empty Array, consuming only the header
through its CRLF; a negative array count is never a FormatError. -/
theorem C10_negative_count (c : Int) (hc : c < 0) (hc2 : -(2 ^ 63) ≤ c)
    (rest : Str) :
    parse_resp ('*' :: (intToStr c ++ CRLF ++ rest)) =
      .ok (.array [], (intToStr c).length + 3) :=
  parse_resp_negative_count c hc hc2 rest

theorem C10_witness :
    parse_resp ('*' :: (intToStr (-2) ++ CRLF ++ str "junk")) =
      .ok (.array [], 5) :=
  (C10_negative_count (-2) (by norm_num) (by norm_num) (str "junk")).trans
    (by decide)
